import Mathlib

/-!
Verification of the `graphs` repository (graph representations and graph
algorithms) against its natural-language specification.

The Python source is shallowly embedded: vertex keys are `Int`, edge weights
are `Int`, and an optional weight (`None` in Python, an unweighted edge) is
`Option Int`.  Fallible operations return `Option` or `Except`; a `none` /
`.error` models a raised Python exception.  Python's `sys.maxsize` is the
constant `MAXSIZE` below.  Python's `sorted` is a stable sort, embedded as
`List.mergeSort` (also stable) with the corresponding boolean key comparison.
-/

namespace Graphs

/-- Python's `sys.maxsize` on a 64-bit platform. -/
def MAXSIZE : Int := 9223372036854775807

/-- Python list indexing `l[i]` with an `int` index: negative indices wrap
around from the end; out-of-range access raises `IndexError` (here `none`). -/
def pyGet (l : List Int) (i : Int) : Option Int :=
  if 0 ≤ i then
    if h : i.toNat < l.length then some (l.get ⟨i.toNat, h⟩) else none
  else
    if h2 : (-i).toNat ≤ l.length ∧ 0 < (-i).toNat then
      some (l.get ⟨l.length - (-i).toNat, by omega⟩)
    else none

/-- Python list element assignment `l[i] = x` for an `int` index (same index
semantics as `pyGet`); out-of-range raises `IndexError` (`none`). -/
def pySet (l : List Int) (i : Int) (x : Int) : Option (List Int) :=
  if 0 ≤ i then
    if i.toNat < l.length then some (l.set i.toNat x) else none
  else
    if (-i).toNat ≤ l.length ∧ 0 < (-i).toNat then
      some (l.set (l.length - (-i).toNat) x)
    else none

/-! ## AdjacencyMatrix weight encoding (`adjacency_matrix.py`)

`AdjacencyMatrix.update_weight` maps an optional weight to the sentinel cell
value stored in the matrix, and `AdjacencyMatrix.get_vertex` (as well as the
algorithms' `_get_neighbors`) decodes a non-zero cell back to an optional
weight. -/

/-- `AdjacencyMatrix.update_weight`: `None ↦ 1`, `w ≥ 0 ↦ w + 2`, and a
negative weight is returned unchanged. -/
def updateWeight (w : Option Int) : Int :=
  match w with
  | none => 1
  | some x => if 0 ≤ x then x + 2 else x

/-- Decoding of a non-zero matrix cell, as written in
`AdjacencyMatrix.get_vertex` and in the algorithms' `_get_neighbors`:
`1 ↦ None`, a positive cell `c ↦ c - 2`, a negative cell is unchanged. -/
def decodeCell (c : Int) : Option Int :=
  if c = 1 then none else if 0 < c then some (c - 2) else some c

/-! ## The AdjacencyMatrix representation (`adjacency_matrix.py`)

`verts` is the list of vertex keys in insertion order: the Python field
`self.vertices` is a dict mapping each key to its row/column index, and by
construction (`add_vertex` appends with index `len(vertices)`,
`remove_vertex` re-indexes in dict order) the key with index `i` is the
`i`-th inserted surviving key.  `mat` is the dense matrix, row major. -/

structure AdjMatrix where
  verts : List Int
  mat : List (List Int)
  directed : Bool
deriving Repr, DecidableEq

/-- The matrix is square with one row and one column per vertex (this is an
invariant of the Python class: `add_vertex` inserts a zero row and a zero
column, `remove_vertex` deletes one of each). -/
def AdjMatrix.WF (m : AdjMatrix) : Prop :=
  m.mat.length = m.verts.length ∧ ∀ row ∈ m.mat, row.length = m.verts.length

/-- Matrix cell read `adjacency_matrix[i, j]` (indices produced by the
vertex map; in-range on a well-formed matrix, so the out-of-range default
`0` is never exercised). -/
def AdjMatrix.cell (m : AdjMatrix) (i j : Nat) : Int :=
  (m.mat.getD i []).getD j 0

/-- Matrix cell write `adjacency_matrix[i, j] = x`. -/
def AdjMatrix.setCell (m : AdjMatrix) (i j : Nat) (x : Int) : AdjMatrix :=
  { m with mat := m.mat.set i ((m.mat.getD i []).set j x) }

/-- `AdjacencyMatrix.add_edge(vertex1, vertex2, weight)`: verifies both
vertices are present, raises `NeighborAlreadyExistsError` when the cell is
already non-zero, then stores `update_weight(weight)` in the cell (and in the
mirror cell when the matrix is undirected, the edge is not a self loop and
the mirror cell is still 0). -/
def AdjMatrix.addEdge (m : AdjMatrix) (v1 v2 : Int) (w : Option Int) :
    Option AdjMatrix :=
  match m.verts.indexOf? v1, m.verts.indexOf? v2 with
  | some i, some j =>
    if m.cell i j ≠ 0 then none
    else
      let m1 := m.setCell i j (updateWeight w)
      if ¬ m.directed ∧ v1 ≠ v2 ∧ m1.cell j i = 0 then
        some (m1.setCell j i (updateWeight w))
      else some m1
  | _, _ => none

/-- `AdjacencyMatrix.remove_vertex(vertex)`: verifies the vertex is present,
deletes its row and its column, removes it from the vertex map and
re-indexes the remaining keys in order. -/
def AdjMatrix.removeVertex (m : AdjMatrix) (v : Int) : Option AdjMatrix :=
  match m.verts.indexOf? v with
  | none => none
  | some i =>
    some { verts := m.verts.eraseIdx i
           mat := (m.mat.eraseIdx i).map (fun row => row.eraseIdx i)
           directed := m.directed }

/-! ## The neighbor query of the algorithm components (claim C1)

`Traversals._get_neighbors`, `Cycles._get_neighbors` and
`Cuts._get_neighbors` each dispatch on the representation's type name:

* `UnweightedGraph`: `node.get_neighbors()` — the stored neighbor keys in
  storage order, no sorting;
* `WeightedGraph` (Traversals, Cuts): the keys of
  `sorted(node.get_neighbors(), key=lambda n: n[1])` — a stable sort by
  weight only;
* `WeightedGraph` (Cycles): `sorted([n[0] for n in node.get_neighbors()])`
  — the keys sorted ascending, weights ignored;
* `AdjacencyList` and `AdjacencyMatrix`: pairs with a null weight mapped to
  `-maxsize`, sorted by the tuple `(weight, key)`, then the keys.

A `WeightedGraphNode`'s stored neighbors are embedded as a list of
`(key, weight)` pairs in storage (dict insertion) order; the simple
(non multi-edge) node is embedded, where weights are plain integers. -/

/-- Boolean comparison of `(key, weight)` pairs by the Python sort key
`(weight, key)`, lexicographically. -/
def lexLe (p q : Int × Int) : Bool :=
  decide (p.2 < q.2 ∨ (p.2 = q.2 ∧ p.1 ≤ q.1))

/-- Boolean comparison of `(key, weight)` pairs by weight only (the sort
key of the `WeightedGraph` branch in `Traversals`/`Cuts`). -/
def weightOnlyLe (p q : Int × Int) : Bool := decide (p.2 ≤ q.2)

/-- `_get_neighbors`, `UnweightedGraph` branch: the stored neighbor keys,
unsorted. -/
def traversalsGetNeighborsUnweighted (neighbors : List Int) : List Int :=
  neighbors

/-- `Traversals._get_neighbors` (also `Cuts`), `WeightedGraph` branch: keys
of the neighbor pairs stably sorted by weight only. -/
def traversalsGetNeighborsWeighted (neighbors : List (Int × Int)) : List Int :=
  (neighbors.mergeSort weightOnlyLe).map Prod.fst

/-- `Cycles._get_neighbors`, `WeightedGraph` branch: neighbor keys sorted
ascending, ignoring weights. -/
def cyclesGetNeighborsWeighted (neighbors : List (Int × Int)) : List Int :=
  (neighbors.map Prod.fst).mergeSort (fun a b => decide (a ≤ b))

/-- A null weight sorts as `-maxsize` in the adjacency branches. -/
def weightOrNegMax (w : Option Int) : Int := w.getD (-MAXSIZE)

/-- The `(key, weight)` pairs of the `AdjacencyList` branch after mapping
null weights to `-maxsize` and sorting by `(weight, key)`. -/
def adjListGetNeighborsPairs (row : List (Int × Option Int)) :
    List (Int × Int) :=
  (row.map (fun p => (p.1, weightOrNegMax p.2))).mergeSort lexLe

/-- `_get_neighbors`, `AdjacencyList` branch (identical in `Traversals`,
`Cycles` and `Cuts`): the sorted keys. -/
def adjListGetNeighbors (row : List (Int × Option Int)) : List Int :=
  (adjListGetNeighborsPairs row).map Prod.fst

/-- `_get_neighbors`, `AdjacencyMatrix` branch, first phase: scan the
vertex's matrix row; every non-zero cell at column `i` contributes the pair
(key with index `i`, decoded weight). -/
def matrixRowNeighbors (verts : List Int) (row : List Int) :
    List (Int × Option Int) :=
  (verts.zip row).filterMap
    (fun p => if p.2 ≠ 0 then some (p.1, decodeCell p.2) else none)

/-- `_get_neighbors`, `AdjacencyMatrix` branch: the decoded pairs are then
put through exactly the same defaulting and `(weight, key)` sort as the
`AdjacencyList` branch. -/
def matrixGetNeighbors (verts : List Int) (row : List Int) : List Int :=
  adjListGetNeighbors (matrixRowNeighbors verts row)

/-- First-match association lookup of a neighbor's stored weight in an
adjacency-list row. -/
def lookupWeight (row : List (Int × Option Int)) (k : Int) :
    Option (Option Int) :=
  (row.find? (fun p => p.1 == k)).map Prod.snd

/-- The matrix row that `AdjacencyMatrix.add_edge` produces for a vertex
whose logical neighbor row is `row`: the cell of column `i` holds
`update_weight(w)` when the key of index `i` has an edge of weight `w`,
and `0` otherwise. -/
def buildRow (verts : List Int) (row : List (Int × Option Int)) : List Int :=
  verts.map (fun u =>
    match lookupWeight row u with
    | some w => updateWeight w
    | none => 0)

/-- The Prop-level `(weight, key)` lexicographic order on `(key, weight)`
pairs. -/
def lexProp (p q : Int × Int) : Prop :=
  p.2 < q.2 ∨ (p.2 = q.2 ∧ p.1 ≤ q.1)

instance (p q : Int × Int) : Decidable (lexProp p q) := by
  unfold lexProp; exact inferInstance

/-! ## Default start vertices (claim C9)

`BaseGraph.get_start_vertex` returns `min(self.vertices, key=lambda v:
v.value)`: the node of minimum key, whatever order the vertex set is
enumerated in.  `AdjacencyList.get_start_vertex` is
`min(self.adjacency_list.keys())`.  Both are the minimum key of the
argument, embedded as Python's `min` over the listed keys (`ValueError`,
i.e. `none`, on an empty collection).
`AdjacencyMatrix.get_start_vertex` is `min(self.vertices,
key=self.vertices.get)`: the key of minimum *index*.  The indices are
exactly `0 .. n-1` in insertion order, so this is the first key of
`verts`. -/

/-- Python `min` over a collection of `Int` keys. -/
def pyMin (l : List Int) : Option Int :=
  match l with
  | [] => none
  | v :: vs => some (vs.foldl min v)

/-- `BaseGraph.get_start_vertex` (used by `UnweightedGraph` and
`WeightedGraph`): minimum node value. -/
def graphGetStartVertex (values : List Int) : Option Int := pyMin values

/-- `AdjacencyList.get_start_vertex`: minimum key of the adjacency dict. -/
def adjListGetStartVertex (keys : List Int) : Option Int := pyMin keys

/-- `AdjacencyMatrix.get_start_vertex`: `min(self.vertices,
key=self.vertices.get)`, the key with the smallest index, i.e. the earliest
inserted key. -/
def matrixGetStartVertex (verts : List Int) : Option Int := verts.head?

/-! ## Graph equality (claim C10)

`UnweightedGraph.__eq__` / `WeightedGraph.__eq__` compare the class, the
`directed` flag, the vertex-set sizes, and then membership of every vertex
node in the other graph's vertex set.  Set membership uses
`BaseGraphNode.__hash__` / `__eq__`, which compare by `value` alone, so two
nodes are "equal" exactly when their keys agree, regardless of their
neighbor collections. -/

/-- An `UnweightedGraphNode` in the simple (non multi-edge) case: a key and
a set of neighbor keys (listed in storage order). -/
structure UNode where
  value : Int
  neighbors : List Int
deriving Repr, DecidableEq

/-- `UnweightedGraph`: a set of `UnweightedGraphNode`s plus the two flags. -/
structure UGraph where
  directed : Bool
  multipleEdges : Bool
  nodes : List UNode
deriving Repr, DecidableEq

/-- A simple `WeightedGraphNode`: a key and a map neighbor key ↦ weight
(listed in storage order). -/
structure WNode where
  value : Int
  neighbors : List (Int × Int)
deriving Repr, DecidableEq

/-- `WeightedGraph`: a set of `WeightedGraphNode`s plus flags and the
default weight. -/
structure WGraph where
  directed : Bool
  multipleEdges : Bool
  defaultWeight : Int
  nodes : List WNode
deriving Repr, DecidableEq

/-- `UnweightedGraph.__eq__`: same `directed` flag, same vertex count, and
every vertex key of the left graph occurs among the right graph's vertex
keys (node equality is by `value` alone). -/
def ugraphEq (g1 g2 : UGraph) : Bool :=
  g1.directed == g2.directed &&
  g1.nodes.length == g2.nodes.length &&
  g1.nodes.all (fun n => g2.nodes.any (fun m => m.value == n.value))

/-- `WeightedGraph.__eq__`: identical comparison (by key membership only). -/
def wgraphEq (g1 g2 : WGraph) : Bool :=
  g1.directed == g2.directed &&
  g1.nodes.length == g2.nodes.length &&
  g1.nodes.all (fun n => g2.nodes.any (fun m => m.value == n.value))

/-! ## Bellman-Ford (claim C6, `shortest_paths.py`)

The adjacency branch is embedded.  A graph is a list of
`(vertex, neighbor row)` pairs, in the order Python's set iteration
enumerates the vertices (the embedding takes that order as given).
`ShortestPaths._get_edges` collects one `(source, target) ↦ weight` entry
per logical edge — skipping a pair whose forward or reverse pair was
already recorded — and returns the entries sorted by the `(source,
target)` key pair.  Distances are a total map `Int → Option Int`, with
`none` standing for `math.inf`. -/

/-- One step of the edge-dict construction in `ShortestPaths._get_edges`:
record `(v, target) ↦ weight` unless `(v, target)` or `(target, v)` is
already present. -/
def spInsertEdge (acc : List ((Int × Int) × Option Int)) (v : Int)
    (e : Int × Option Int) : List ((Int × Int) × Option Int) :=
  if acc.any (fun p => decide (p.1 = (v, e.1) ∨ p.1 = (e.1, v))) then acc
  else acc ++ [((v, e.1), e.2)]

/-- Comparison of edge-dict entries by the `(source, target)` key pair
(Python tuple order). -/
def edgeKeyLe (p q : (Int × Int) × Option Int) : Bool :=
  decide (p.1.1 < q.1.1 ∨ (p.1.1 = q.1.1 ∧ p.1.2 ≤ q.1.2))

/-- `ShortestPaths._get_edges` (adjacency branch): deduplicated edges,
sorted by key pair, flattened to `(source, target, weight)` triples. -/
def spGetEdges (g : List (Int × List (Int × Option Int))) :
    List (Int × Int × Option Int) :=
  let edges := g.foldl
    (fun acc vrow => vrow.2.foldl (fun acc2 e => spInsertEdge acc2 vrow.1 e) acc) []
  (edges.mergeSort edgeKeyLe).map (fun p => (p.1.1, p.1.2, p.2))

/-- One relaxation of one edge in `ShortestPaths.bellman_ford`: a null
weight is replaced by `0`, and `distances[v2]` is lowered to
`distances[v1] + weight` when `distances[v1]` is finite and the sum
improves (`math.inf` beats nothing, anything beats `math.inf`). -/
def relaxEdge (d : Int → Option Int) (e : Int × Int × Option Int) :
    Int → Option Int :=
  let w := e.2.2.getD 0
  match d e.1 with
  | none => d
  | some a =>
    let better : Bool :=
      match d e.2.1 with
      | none => true
      | some b => decide (a + w < b)
    if better then (fun v => if v = e.2.1 then some (a + w) else d v) else d

/-- One full pass of relaxation over the edge list. -/
def relaxPass (edges : List (Int × Int × Option Int)) (d : Int → Option Int) :
    Int → Option Int :=
  edges.foldl relaxEdge d

/-- The initial distance map: `0` at the start vertex, `math.inf`
elsewhere. -/
def bfInit (start : Int) : Int → Option Int :=
  fun v => if v = start then some 0 else none

/-- `ShortestPaths.bellman_ford` (adjacency branch, explicit start):
`len(vertices) - 1` passes of relaxation over the full edge list. -/
def bellmanFord (g : List (Int × List (Int × Option Int))) (start : Int) :
    Int → Option Int :=
  let edges := spGetEdges g
  (List.range (g.length - 1)).foldl (fun d _ => relaxPass edges d) (bfInit start)

/-! ## `remove_vertex` and phantom-edge cleanup (claim C7)

`UnweightedGraph.remove_vertex` / `WeightedGraph.remove_vertex` discard the
node and then, for every remaining node, run
`while key.is_neighbor(vertex): key.remove_neighbor(vertex)`.
The nodes support multi-edges: an unweighted multi node stores a count per
neighbor key, a weighted multi node stores a list of weights per neighbor
key; the simple nodes discard the whole entry in one `remove_neighbor`
call.  The while loop is embedded with fuel one larger than a measure that
strictly decreases at every iteration (the fuel bound is proved never to be
reached). -/

/-- An `UnweightedGraphNode` covering both the simple and the multi-edge
storage: neighbor key ↦ multiplicity (a simple node's entries all have
multiplicity 1). -/
structure UNodeM where
  value : Int
  neighbors : List (Int × Nat)
deriving Repr, DecidableEq

structure UGraphM where
  directed : Bool
  multipleEdges : Bool
  nodes : List UNodeM
deriving Repr, DecidableEq

/-- A `WeightedGraphNode` covering both storages: neighbor key ↦ stored
weights (a simple node's entries hold one weight). -/
structure WNodeM where
  value : Int
  neighbors : List (Int × List Int)
deriving Repr, DecidableEq

structure WGraphM where
  directed : Bool
  multipleEdges : Bool
  nodes : List WNodeM
deriving Repr, DecidableEq

/-- `UnweightedGraphNode.is_neighbor`. -/
def uIsNeighbor (ns : List (Int × Nat)) (v : Int) : Bool :=
  ns.any (fun p => p.1 == v)

/-- `WeightedGraphNode.is_neighbor`. -/
def wIsNeighbor (ns : List (Int × List Int)) (v : Int) : Bool :=
  ns.any (fun p => p.1 == v)

/-- Python `max` over a list of `Int` (`ValueError`, `none`, when empty). -/
def pyMax (l : List Int) : Option Int :=
  match l with
  | [] => none
  | a :: as => some (as.foldl max a)

/-- One multi-edge `UnweightedGraphNode.remove_neighbor` call on the first
entry for `v`: decrement its count, deleting the entry when the count
reaches zero. -/
def uDecrement : List (Int × Nat) → Int → List (Int × Nat)
  | [], _ => []
  | p :: rest, v =>
    if p.1 = v then
      if p.2 - 1 = 0 then rest else (p.1, p.2 - 1) :: rest
    else p :: uDecrement rest v

/-- `UnweightedGraphNode.remove_neighbor(v)`: a simple node discards the
key from its neighbor set; a multi node decrements the count. -/
def uRemoveNeighbor (multi : Bool) (ns : List (Int × Nat)) (v : Int) :
    List (Int × Nat) :=
  if ¬ multi then ns.filter (fun p => p.1 != v) else uDecrement ns v

/-- One multi-edge `WeightedGraphNode.remove_neighbor(v)` call (with the
weight argument `None`, as `remove_vertex` calls it): remove the first
occurrence of the maximum stored weight for `v`, deleting the whole entry
when no weight remains. -/
def wDecrement : List (Int × List Int) → Int → List (Int × List Int)
  | [], _ => []
  | p :: rest, v =>
    if p.1 = v then
      match pyMax p.2 with
      | none => rest
      | some mx =>
        if (p.2.erase mx).isEmpty then rest else (p.1, p.2.erase mx) :: rest
    else p :: wDecrement rest v

/-- `WeightedGraphNode.remove_neighbor(v)` (weight `None`). -/
def wRemoveNeighbor (multi : Bool) (ns : List (Int × List Int)) (v : Int) :
    List (Int × List Int) :=
  if ¬ multi then ns.filter (fun p => p.1 != v) else wDecrement ns v

/-- Decreasing measure of the unweighted while loop: total multiplicity
(plus one per entry) stored for `v`. -/
def uMeasure (ns : List (Int × Nat)) (v : Int) : Nat :=
  (ns.map (fun p => if p.1 = v then p.2 + 1 else 0)).sum

/-- Decreasing measure of the weighted while loop. -/
def wMeasure (ns : List (Int × List Int)) (v : Int) : Nat :=
  (ns.map (fun p => if p.1 = v then p.2.length + 1 else 0)).sum

/-- The fueled `while is_neighbor: remove_neighbor` loop (unweighted). -/
def uStripGo (multi : Bool) (v : Int) : Nat → List (Int × Nat) → List (Int × Nat)
  | 0, ns => ns
  | fuel + 1, ns =>
    if uIsNeighbor ns v then uStripGo multi v fuel (uRemoveNeighbor multi ns v)
    else ns

/-- `while key.is_neighbor(v): key.remove_neighbor(v)` — the fuel
`uMeasure ns v + 1` is proved sufficient (`uStripGo_not_neighbor`). -/
def uStrip (multi : Bool) (ns : List (Int × Nat)) (v : Int) : List (Int × Nat) :=
  uStripGo multi v (uMeasure ns v + 1) ns

/-- The fueled while loop (weighted). -/
def wStripGo (multi : Bool) (v : Int) :
    Nat → List (Int × List Int) → List (Int × List Int)
  | 0, ns => ns
  | fuel + 1, ns =>
    if wIsNeighbor ns v then wStripGo multi v fuel (wRemoveNeighbor multi ns v)
    else ns

def wStrip (multi : Bool) (ns : List (Int × List Int)) (v : Int) :
    List (Int × List Int) :=
  wStripGo multi v (wMeasure ns v + 1) ns

/-- `UnweightedGraph.remove_vertex`: verify presence
(`VertexDoesNotExistError` otherwise), discard the node, then strip the
removed key from every remaining node's neighbors. -/
def uRemoveVertex (g : UGraphM) (v : Int) : Option UGraphM :=
  if g.nodes.any (fun n => n.value == v) then
    some (UGraphM.mk g.directed g.multipleEdges
      ((g.nodes.filter (fun n => n.value != v)).map
        (fun n => UNodeM.mk n.value (uStrip g.multipleEdges n.neighbors v))))
  else none

/-- `WeightedGraph.remove_vertex`: same shape. -/
def wRemoveVertex (g : WGraphM) (v : Int) : Option WGraphM :=
  if g.nodes.any (fun n => n.value == v) then
    some (WGraphM.mk g.directed g.multipleEdges
      ((g.nodes.filter (fun n => n.value != v)).map
        (fun n => WNodeM.mk n.value (wStrip g.multipleEdges n.neighbors v))))
  else none

/-- The `AdjacencyList` representation: rows in dict insertion order. -/
structure AList where
  directed : Bool
  multipleEdges : Bool
  rows : List (Int × List (Int × Option Int))
deriving Repr, DecidableEq

/-- The body of `AdjacencyList._update_edges` for one row:
`for i in range(len(row)): if row[i][0] not in keys: del row[i]`.
`range(len(row))` is evaluated once (`steps` counts down from the original
length), but `row[i]` re-reads the current, possibly shortened, list;
reading past its end raises `IndexError` (`none`). -/
def updateRowGo (keys : List Int) :
    Nat → Nat → List (Int × Option Int) → Option (List (Int × Option Int))
  | _, 0, l => some l
  | i, steps + 1, l =>
    match l.get? i with
    | none => none
    | some e =>
      if e.1 ∈ keys then updateRowGo keys (i + 1) steps l
      else updateRowGo keys (i + 1) steps (l.eraseIdx i)

def updateRow (keys : List Int) (l : List (Int × Option Int)) :
    Option (List (Int × Option Int)) :=
  updateRowGo keys 0 l.length l

/-- `AdjacencyList._update_edges`: run the deletion loop on every row. -/
def updateEdges (rows : List (Int × List (Int × Option Int))) :
    Option (List (Int × List (Int × Option Int))) :=
  let keys := rows.map Prod.fst
  rows.mapM (fun r => (updateRow keys r.2).map (fun l => (r.1, l)))

/-- `AdjacencyList.remove_vertex`: verify presence, delete the row, then
`_update_edges`. -/
def aListRemoveVertex (g : AList) (v : Int) : Option AList :=
  if (g.rows.map Prod.fst).contains v then
    (updateEdges (g.rows.filter (fun r => r.1 != v))).map
      (fun rows => { g with rows := rows })
  else none

/-! ## Unimplemented algorithms (claim C8)

`ShortestPaths.johnsons` raises `AlgorithmNotImplementedError` on its first
line; nothing after the raise executes and the graph is untouched.
`MSTs.arborescence` first checks directedness (raising
`UnsupportedGraphTypeError` on an undirected graph) and then
unconditionally raises `AlgorithmNotImplementedError`. -/

deriving instance DecidableEq for Except

inductive AlgError where
  | notImplemented
  | unsupportedGraphType
  | incompleteTraversal
  | indexError
  | keyError
deriving Repr, DecidableEq

/-- `ShortestPaths.johnsons`: raises immediately; the pair returns the
result together with the (unchanged) graph state. -/
def johnsons (g : WGraph) : Except AlgError (List Int) × WGraph :=
  (Except.error AlgError.notImplemented, g)

/-- `MSTs.arborescence`: `UnsupportedGraphTypeError` on an undirected
graph, otherwise `AlgorithmNotImplementedError`; the graph is returned
unchanged. -/
def arborescence (g : WGraph) : Except AlgError (Int × List Int) × WGraph :=
  if ¬ g.directed then (Except.error AlgError.unsupportedGraphType, g)
  else (Except.error AlgError.notImplemented, g)


/-! ## Minimum spanning trees (claims C3 and C5,
`minimum_spanning_trees.py`)

The `WeightedGraph` branch with simple (single-weight) nodes is embedded;
`g.nodes` is taken in the order Python's set iteration enumerates the
vertex set.  `MSTs._find_set` recurses through `nodes[target]`, where
`nodes` is the *sorted list of vertex keys* and `target` is a *vertex
key* used as a list index (Python semantics: negative indices wrap,
out-of-range raises `IndexError`); a run that revisits an index never
terminates (Python: `RecursionError`), so fuel `nodes.length + 1` — enough
for any terminating chain of distinct indices — is exact: exhausting it
coincides with a Python exception. -/

/-- One step of the edge-dict construction in `MSTs._get_edges`. -/
def mstInsertEdge (acc : List ((Int × Int) × Int)) (v : Int) (e : Int × Int) :
    List ((Int × Int) × Int) :=
  if acc.any (fun p => decide (p.1 = (v, e.1) ∨ p.1 = (e.1, v))) then acc
  else acc ++ [((v, e.1), e.2)]

/-- `sorted(edges.items(), key=lambda x: x[1])`: compare by weight. -/
def mstWeightLe (p q : (Int × Int) × Int) : Bool := decide (p.2 ≤ q.2)

/-- `MSTs._get_edges` for a `WeightedGraph`: one entry per logical edge
(first orientation encountered), sorted ascending by weight. -/
def mstGetEdgesW (g : WGraph) : List (Int × Int × Int) :=
  let edges := g.nodes.foldl
    (fun acc n => n.neighbors.foldl (fun a e => mstInsertEdge a n.value e) acc) []
  (edges.mergeSort mstWeightLe).map (fun p => (p.1.1, p.1.2, p.2))

/-- `MSTs._get_edges` for an `UnweightedGraph`: every neighbor key gets
implicit weight 1. -/
def mstGetEdgesU (g : UGraph) : List (Int × Int × Int) :=
  let edges := g.nodes.foldl
    (fun acc n => n.neighbors.foldl (fun a e => mstInsertEdge a n.value (e, 1)) acc) []
  (edges.mergeSort mstWeightLe).map (fun p => (p.1.1, p.1.2, p.2))

/-- `MSTs._find_set(nodes, target)`: `nodes[target] == target` or recurse
on `nodes[target]` — the parent table is indexed by vertex *key*.  `none`
is an `IndexError` (key out of the table's range) or a `RecursionError`
(fuel exhausted, which happens exactly when the chain revisits an
index). -/
def findSet (nodes : List Int) : Nat → Int → Option Int
  | 0, _ => none
  | fuel + 1, target =>
    match pyGet nodes target with
    | none => none
    | some p => if p = target then some target else findSet nodes fuel p

/-- `MSTs._union`: find both roots again, then link by rank (the `rank`
table is likewise indexed by vertex key). -/
def unionSets (nodes rank : List Int) (first second : Int) :
    Option (List Int × List Int) :=
  match findSet nodes (nodes.length + 1) first,
        findSet nodes (nodes.length + 1) second with
  | some root1, some root2 =>
    match pyGet rank root1, pyGet rank root2 with
    | some r1, some r2 =>
      if r1 > r2 then (pySet nodes root2 root1).map (fun ns => (ns, rank))
      else if r1 < r2 then (pySet nodes root1 root2).map (fun ns => (ns, rank))
      else
        match pySet nodes root2 root1, pySet rank root1 (r1 + 1) with
        | some ns, some rk => some (ns, rk)
        | _, _ => none
    | _, _ => none
  | _, _ => none

/-- The `while len(mst) < len(vertices) - 1` loop of `MSTs.kruskals_mst`:
pop the cheapest edge, keep it exactly when its two roots differ. -/
def kruskalsLoop (nVerts : Nat) :
    List (Int × Int × Int) → List Int → List Int →
    List (Int × Int × Int) → Int → Option (Int × List (Int × Int × Int))
  | edges, nodes, rank, mst, cost =>
    if mst.length < nVerts - 1 then
      match edges with
      | [] => some (cost, mst)
      | e :: rest =>
        match findSet nodes (nodes.length + 1) e.1,
              findSet nodes (nodes.length + 1) e.2.1 with
        | some first, some second =>
          if first ≠ second then
            match unionSets nodes rank first second with
            | none => none
            | some (ns, rk) =>
              kruskalsLoop nVerts rest ns rk (mst ++ [e]) (cost + e.2.2)
          else kruskalsLoop nVerts rest nodes rank mst cost
        | _, _ => none
    else some (cost, mst)

/-- `MSTs.kruskals_mst` on a `WeightedGraph`: refuse directed graphs, sort
the edges by weight, run the union-find loop over the sorted vertex-key
list with an all-zero rank table. -/
def kruskalsW (g : WGraph) : Except AlgError (Int × List (Int × Int × Int)) :=
  if g.directed then Except.error AlgError.unsupportedGraphType
  else
    let edges := mstGetEdgesW g
    let nodes := (g.nodes.map WNode.value).mergeSort (fun a b => decide (a ≤ b))
    let rank := List.replicate g.nodes.length (0 : Int)
    match kruskalsLoop g.nodes.length edges nodes rank [] 0 with
    | none => Except.error AlgError.indexError
    | some res => Except.ok res

/-- Association-list read of a Python dict keyed by vertex (a `none` is a
`KeyError`). -/
def assocGet (l : List (Int × Int)) (k : Int) : Option Int :=
  (l.find? (fun p => p.1 == k)).map Prod.snd

/-- Association-list write `d[k] = x` for a key already present (dict
update keeps the entry's position). -/
def assocSet (l : List (Int × Int)) (k : Int) (x : Int) : List (Int × Int) :=
  l.map (fun p => if p.1 = k then (k, x) else p)

/-- Parent-dict read: `none` models Python's `None` (no parent yet). -/
def assocGetP (l : List (Int × (Int × Int))) (k : Int) : Option (Int × Int) :=
  (l.find? (fun p => p.1 == k)).map Prod.snd

/-- Parent-dict write. -/
def assocSetP (l : List (Int × (Int × Int))) (k : Int) (x : Int × Int) :
    List (Int × (Int × Int)) :=
  if l.any (fun p => p.1 == k) then
    l.map (fun p => if p.1 = k then (k, x) else p)
  else l ++ [(k, x)]

/-- The mutable state of `MSTs.prims_mst`. -/
structure PrimsState where
  weights : List (Int × Int)
  parent : List (Int × (Int × Int))
  vset : List Int
  mst : List (Int × Int × Int)
deriving Repr, DecidableEq

/-- `MSTs._min_weight_not_in_mst`: scan `weights.items()` in insertion
order, keeping the first strict improvement that is still in
`vertex_set`. -/
def primsMinSearch (weights : List (Int × Int)) (vset : List Int) :
    Option Int × Int :=
  weights.foldl
    (fun acc p => if p.2 < acc.2 ∧ p.1 ∈ vset then (some p.1, p.2) else acc)
    (none, MAXSIZE)

/-- One iteration of the main loop of `MSTs.prims_mst` (`WeightedGraph`
branch, simple nodes): extract the minimum frontier vertex (`parent[None]`
raises `KeyError` when none is found), discard it from `vertex_set`,
record its tree edge, then relax every remaining vertex adjacent to it. -/
def primsIter (g : WGraph) (st : PrimsState) : Option PrimsState :=
  match (primsMinSearch st.weights st.vset).1 with
  | none => none
  | some mv =>
    let vset' := st.vset.filter (fun x => x != mv)
    let mst' :=
      match assocGetP st.parent mv with
      | none => st.mst
      | some pr => st.mst ++ [(pr.1, mv, pr.2)]
    some (g.nodes.foldl
      (fun acc n =>
        if n.neighbors.any (fun p => p.1 == mv) ∧ n.value ∈ vset' then
          match assocGet n.neighbors mv, assocGet acc.weights n.value with
          | some w, some cur =>
            if cur > w then
              PrimsState.mk (assocSet acc.weights n.value w)
                (assocSetP acc.parent n.value (mv, w)) acc.vset acc.mst
            else acc
          | _, _ => acc
        else acc)
      (PrimsState.mk st.weights st.parent vset' mst'))

/-- `for i in self._graph.vertices`: run `n` iterations. -/
def primsLoop (g : WGraph) : Nat → PrimsState → Option PrimsState
  | 0, st => some st
  | k + 1, st =>
    match primsIter g st with
    | none => none
    | some st2 => primsLoop g k st2

/-- `MSTs.prims_mst` on a `WeightedGraph` with an explicit (valid) start
vertex: refuse directed graphs, initialize all weights to `maxsize` except
`0` at the start, run `|V|` extraction/relaxation rounds, and sum the tree
edges' weights. -/
def primsW (g : WGraph) (start : Int) :
    Except AlgError (Int × List (Int × Int × Int)) :=
  if g.directed then Except.error AlgError.unsupportedGraphType
  else
    let weights0 := assocSet (g.nodes.map (fun n => (n.value, MAXSIZE))) start 0
    let st0 := PrimsState.mk weights0 [] (g.nodes.map WNode.value) []
    match primsLoop g g.nodes.length st0 with
    | none => Except.error AlgError.keyError
    | some st => Except.ok (st.mst.foldl (fun acc e => acc + e.2.2) 0, st.mst)


/-! ## Full traversals `bft` / `dft` (claim C2, `traversals.py`)

`Traversals.bft` and `Traversals.dft` interact with the representation
only through `_get_neighbors` (claim C1) and the vertex count, so they are
embedded over that interface: a vertex list plus the neighbor query.
`bft` keeps a `visited` list and a worklist `neighbors`, popping the front
and appending the popped vertex's neighbors whenever it is new; it raises
`IncompleteTraversalError` (`Except.error`) when the visited count differs
from the vertex count.  `dft` recurses on each unvisited neighbor in
order, sharing the growing `visited` list.  Both loops are embedded with
fuel (the outer `Option`); the fuel bounds below are proved sufficient, so
`none` is unreachable under the stated well-formedness. -/

structure TGraph where
  verts : List Int
  adj : Int → List Int

/-- The neighbor query only mentions present vertices (true of every
representation: `add_edge` verifies both endpoints). -/
def TGraph.WF (g : TGraph) : Prop :=
  ∀ v ∈ g.verts, ∀ u ∈ g.adj v, u ∈ g.verts

instance (g : TGraph) : Decidable (TGraph.WF g) := by
  unfold TGraph.WF; exact inferInstance

/-- One edge step of the neighbor query. -/
def ReachStep (g : TGraph) (a b : Int) : Prop := b ∈ g.adj a

/-- Reachability along neighbor-query edges. -/
def Reach (g : TGraph) (a b : Int) : Prop :=
  Relation.ReflTransGen (ReachStep g) a b

/-- The `while neighbors:` loop of `Traversals.bft`. -/
def bftLoop (g : TGraph) : Nat → List Int → List Int → Option (List Int)
  | _, [], visited => some visited
  | 0, _ :: _, _ => none
  | fuel + 1, t :: queue, visited =>
    if t ∈ visited then bftLoop g fuel queue visited
    else bftLoop g fuel (queue ++ g.adj t) (visited ++ [t])

/-- An upper bound on the neighbor-list lengths of the graph's vertices. -/
def maxAdj (g : TGraph) : Nat :=
  (g.verts.map (fun v => (g.adj v).length)).foldl max 0

/-- Sufficient fuel for `bftLoop` (proved in `bftLoop_isSome`). -/
def bftFuel (g : TGraph) : Nat := (g.verts.length + 1) * (maxAdj g + 1)

/-- Vertices not yet visited. -/
def unvisitedCount (g : TGraph) (vis : List Int) : Nat :=
  (g.verts.filter (fun v => decide (¬ v ∈ vis))).length

/-- `Traversals.bft` from a (valid) start vertex: run the loop from
`visited = [start]`, `neighbors = _get_neighbors(start)`, then raise
`IncompleteTraversalError` when the visited count misses the vertex
count. -/
def bft (g : TGraph) (start : Int) : Option (Except Unit (List Int)) :=
  match bftLoop g (bftFuel g) (g.adj start) [start] with
  | none => none
  | some visited =>
    some (if visited.length ≠ g.verts.length then Except.error ()
          else Except.ok visited)

mutual
/-- `Traversals._dft_recurse`: append the node, then walk its neighbor
list. -/
def dftRec (g : TGraph) : Nat → Int → List Int → Option (List Int)
  | 0, _, _ => none
  | fuel + 1, node, visited => dftNbrs g fuel (g.adj node) (visited ++ [node])
termination_by fuel _ _ => (fuel, 0)

/-- The `while neighbors:` loop inside `_dft_recurse`: recurse on each
neighbor that is unvisited at the moment it is processed. -/
def dftNbrs (g : TGraph) : Nat → List Int → List Int → Option (List Int)
  | _, [], visited => some visited
  | fuel, n :: rest, visited =>
    if n ∈ visited then dftNbrs g fuel rest visited
    else
      match dftRec g fuel n visited with
      | none => none
      | some visited2 => dftNbrs g fuel rest visited2
termination_by fuel ns _ => (fuel, ns.length + 1)
end

/-- Sufficient recursion depth for `dft` (proved in `dftRec_isSome`). -/
def dftFuel (g : TGraph) : Nat := g.verts.length + 1

/-- `Traversals.dft` from a (valid) start vertex. -/
def dft (g : TGraph) (start : Int) : Option (Except Unit (List Int)) :=
  match dftRec g (dftFuel g) start [] with
  | none => none
  | some visited =>
    some (if visited.length ≠ g.verts.length then Except.error ()
          else Except.ok visited)

end Graphs

namespace Graphs

/-! ## Theorems for claims C4, C8, C9, C10 -/

/-- C4 counterexample: the claim says a negative weight `w` is stored as
`w - 2`; `update_weight` actually stores a negative weight unchanged, so
weight `-5` is stored as `-5`, not `-7`. -/
theorem c4_counterexample :
    updateWeight (some (-5)) = -5 ∧ ((-5 : Int) ≠ -7) := by decide

/-- After `setCell i j x`, reading cell `(i, j)` gives `x` (in range). -/
theorem cell_setCell_self (m : AdjMatrix) (i j : Nat) (x : Int)
    (hi : i < m.mat.length) (hj : j < (m.mat.getD i []).length) :
    (m.setCell i j x).cell i j = x := by
  unfold AdjMatrix.setCell AdjMatrix.cell
  simp only [List.getD] at hj ⊢
  rw [List.get?_set_eq_of_lt _ hi, Option.getD_some,
    List.get?_set_eq_of_lt _ hj, Option.getD_some]

/-- `setCell` at a row other than `i` leaves row `i` unchanged. -/
theorem cell_setCell_other_row (m : AdjMatrix) (i j k l : Nat) (x : Int)
    (hne : k ≠ i) :
    (m.setCell k l x).cell i j = m.cell i j := by
  unfold AdjMatrix.setCell AdjMatrix.cell
  simp only [List.getD]
  rw [List.get?_set_ne _ _ hne]

/-- Claim C4 (amended): the matrix cell encoding is `0` = no edge, `1` =
unweighted edge, `w + 2` for a weight `w ≥ 0`, and a negative weight is
stored unchanged; the encoding of an edge is never `0`, decoding a stored
cell recovers the original optional weight (`1` decodes to null), and
`add_edge` writes exactly `update_weight(w)` into the cell of the edge. -/
theorem c4_matrix_sentinel_encoding (w : Option Int) (m m' : AdjMatrix)
    (v1 v2 : Int) (i j : Nat)
    (h1 : m.verts.indexOf? v1 = some i) (h2 : m.verts.indexOf? v2 = some j)
    (hij : i ≠ j) (hrow : i < m.mat.length)
    (hcol : j < (m.mat.getD i []).length)
    (hadd : m.addEdge v1 v2 w = some m') :
    updateWeight none = 1 ∧
    (∀ x : Int, 0 ≤ x → updateWeight (some x) = x + 2) ∧
    (∀ x : Int, x < 0 → updateWeight (some x) = x) ∧
    updateWeight w ≠ 0 ∧
    decodeCell (updateWeight w) = w ∧
    m'.cell i j = updateWeight w := by
  refine ⟨rfl, ?_, ?_, ?_, ?_, ?_⟩
  · intro x hx; simp [updateWeight, hx]
  · intro x hx; simp only [updateWeight]; rw [if_neg (by omega)]
  · cases w with
    | none => simp [updateWeight]
    | some x =>
      simp only [updateWeight]
      by_cases hx : 0 ≤ x
      · rw [if_pos hx]; omega
      · rw [if_neg hx]; omega
  · cases w with
    | none => simp [updateWeight, decodeCell]
    | some x =>
      simp only [updateWeight, decodeCell]
      by_cases hx : 0 ≤ x
      · rw [if_pos hx, if_neg (by omega : ¬ (x + 2 = 1)),
          if_pos (by omega : (0 : Int) < x + 2)]
        congr 1; omega
      · rw [if_neg hx, if_neg (by omega : ¬ (x = 1)),
          if_neg (by omega : ¬ ((0 : Int) < x))]
  · -- the cell written by add_edge holds update_weight w
    unfold AdjMatrix.addEdge at hadd
    rw [h1, h2] at hadd
    simp only at hadd
    have hkey : (m.setCell i j (updateWeight w)).cell i j = updateWeight w :=
      cell_setCell_self m i j _ hrow hcol
    split at hadd
    · exact absurd hadd (by simp)
    · split at hadd
      · have hm' : m' = (m.setCell i j (updateWeight w)).setCell j i (updateWeight w) :=
          (Option.some_inj.mp hadd).symm
        rw [hm', cell_setCell_other_row _ _ _ _ _ _ (Ne.symm hij)]
        exact hkey
      · have hm' : m' = m.setCell i j (updateWeight w) := (Option.some_inj.mp hadd).symm
        rw [hm']; exact hkey

/-- Witness for `c4_matrix_sentinel_encoding` on a concrete 2-vertex
matrix. -/
theorem c4_matrix_sentinel_encoding_witness :
    (AdjMatrix.mk [4, 7] [[0, 0], [0, 0]] true).addEdge 4 7 (some (-5)) =
      some (AdjMatrix.mk [4, 7] [[0, -5], [0, 0]] true) ∧
    updateWeight none = 1 ∧
    (∀ x : Int, 0 ≤ x → updateWeight (some x) = x + 2) ∧
    (∀ x : Int, x < 0 → updateWeight (some x) = x) ∧
    updateWeight (some (-5)) ≠ 0 ∧
    decodeCell (updateWeight (some (-5))) = some (-5) ∧
    (AdjMatrix.mk [4, 7] [[0, -5], [0, 0]] true).cell 0 1 = updateWeight (some (-5)) := by
  refine ⟨by decide, ?_⟩
  have h := c4_matrix_sentinel_encoding (some (-5))
    (AdjMatrix.mk [4, 7] [[0, 0], [0, 0]] true)
    (AdjMatrix.mk [4, 7] [[0, -5], [0, 0]] true) 4 7 0 1
    (by decide) (by decide) (by decide) (by decide) (by decide) (by decide)
  exact h

/-- Claim C8: `johnsons` always raises `AlgorithmNotImplementedError`
immediately, executing nothing and leaving the graph unchanged;
`arborescence` raises `UnsupportedGraphTypeError` on an undirected graph
and `AlgorithmNotImplementedError` on a directed one, also leaving the
graph unchanged. -/
theorem c8_unimplemented_algorithms (g : WGraph) :
    johnsons g = (Except.error AlgError.notImplemented, g) ∧
    arborescence g =
      ((if g.directed then Except.error AlgError.notImplemented
        else Except.error AlgError.unsupportedGraphType), g) := by
  constructor
  · rfl
  · unfold arborescence
    cases hd : g.directed <;> simp [hd]

/-- The sentinel encoding of an existing edge is never `0`. -/
theorem updateWeight_ne_zero (w : Option Int) : updateWeight w ≠ 0 := by
  cases w with
  | none => simp [updateWeight]
  | some x =>
    simp only [updateWeight]
    by_cases hx : 0 ≤ x
    · rw [if_pos hx]; omega
    · rw [if_neg hx]; omega

/-- Decoding inverts the sentinel encoding. -/
theorem decodeCell_updateWeight (w : Option Int) :
    decodeCell (updateWeight w) = w := by
  cases w with
  | none => simp [updateWeight, decodeCell]
  | some x =>
    simp only [updateWeight, decodeCell]
    by_cases hx : 0 ≤ x
    · rw [if_pos hx, if_neg (by omega : ¬ (x + 2 = 1)),
        if_pos (by omega : (0 : Int) < x + 2)]
      congr 1; omega
    · rw [if_neg hx, if_neg (by omega : ¬ (x = 1)),
        if_neg (by omega : ¬ ((0 : Int) < x))]

theorem lexLe_eq_decide (p q : Int × Int) : lexLe p q = decide (lexProp p q) := rfl

theorem lexProp_trans (a b c : Int × Int) :
    lexProp a b → lexProp b c → lexProp a c := by
  unfold lexProp; omega

theorem lexProp_total (a b : Int × Int) : lexLe a b || lexLe b a := by
  simp only [lexLe, Bool.or_eq_true, decide_eq_true_eq]
  omega

theorem lexProp_antisymm (a b : Int × Int) :
    lexProp a b → lexProp b a → a = b := by
  unfold lexProp
  intro h1 h2
  have : a.1 = b.1 ∧ a.2 = b.2 := by omega
  exact Prod.ext this.1 this.2

/-- Sorting by `lexLe` yields a `lexProp`-sorted list. -/
theorem sorted_mergeSort_lexLe (l : List (Int × Int)) :
    (l.mergeSort lexLe).Pairwise lexProp := by
  have h := @List.sorted_mergeSort _ lexLe
    (fun a b c hab hbc => by
      rw [lexLe_eq_decide] at hab hbc ⊢
      exact decide_eq_true (lexProp_trans a b c
        (of_decide_eq_true hab) (of_decide_eq_true hbc)))
    (lexProp_total) l
  exact h.imp (fun hab => of_decide_eq_true hab)

/-- Zipping a list with its image under `f` pairs each element with its
image. -/
theorem zip_self_map {α β : Type} (f : α → β) :
    ∀ (l : List α), l.zip (l.map f) = l.map (fun u => (u, f u))
  | [] => rfl
  | a :: as => by simp [zip_self_map f as]

/-- The pointwise content of a matrix row built by `add_edge` from a
logical neighbor row: column `u` decodes back to the stored weight. -/
theorem matrixRowNeighbors_buildRow (verts : List Int)
    (row : List (Int × Option Int)) :
    matrixRowNeighbors verts (buildRow verts row) =
      verts.filterMap (fun u => (lookupWeight row u).map (fun w => (u, w))) := by
  unfold matrixRowNeighbors buildRow
  rw [zip_self_map]
  rw [List.filterMap_map]
  apply List.filterMap_congr
  intro u _
  cases h : lookupWeight row u with
  | none => simp [h]
  | some w =>
    simp only [Function.comp_apply, h]
    rw [if_pos (updateWeight_ne_zero w), decodeCell_updateWeight]
    rfl

/-- Scanning a built matrix row recovers a permutation of the logical
neighbor row. -/
theorem matrixRowNeighbors_perm (row : List (Int × Option Int))
    (verts : List Int) (hv : verts.Nodup) (hk : (row.map Prod.fst).Nodup)
    (hsub : ∀ k ∈ row.map Prod.fst, k ∈ verts) :
    List.Perm (matrixRowNeighbors verts (buildRow verts row)) row := by
  rw [matrixRowNeighbors_buildRow]
  induction row generalizing verts with
  | nil => simp [lookupWeight]
  | cons p rest ih =>
    obtain ⟨k, w⟩ := p
    have hkv : k ∈ verts := hsub k (by simp)
    obtain ⟨s, t, rfl⟩ := List.append_of_mem hkv
    have hks : k ∉ s ∧ k ∉ t := by
      rw [List.nodup_append] at hv
      refine ⟨?_, ?_⟩
      · intro hmem; exact hv.2.2 hmem (List.mem_cons_self k t)
      · exact fun hmem => (List.nodup_cons.mp hv.2.1).1 hmem
    have hsplit : ∀ u, u ≠ k →
        lookupWeight ((k, w) :: rest) u = lookupWeight rest u := by
      intro u hu
      unfold lookupWeight
      rw [List.find?_cons_of_neg]
      simp only [beq_iff_eq]
      exact fun h => hu h.symm
    have hself : lookupWeight ((k, w) :: rest) k = some w := by
      unfold lookupWeight
      rw [List.find?_cons_of_pos _ (by simp)]
      rfl
    rw [List.filterMap_append]
    have hcons : List.filterMap
        (fun u => (lookupWeight ((k, w) :: rest) u).map (fun x => (u, x)))
        (k :: t) = (k, w) ::
          List.filterMap (fun u => (lookupWeight rest u).map (fun x => (u, x))) t := by
      rw [List.filterMap_cons]
      rw [hself]
      simp only [Option.map_some']
      congr 1
      apply List.filterMap_congr
      intro u hu
      rw [hsplit u (fun h => hks.2 (h ▸ hu))]
    rw [hcons]
    have hs : List.filterMap
        (fun u => (lookupWeight ((k, w) :: rest) u).map (fun x => (u, x))) s =
        List.filterMap (fun u => (lookupWeight rest u).map (fun x => (u, x))) s := by
      apply List.filterMap_congr
      intro u hu
      rw [hsplit u (fun h => hks.1 (h ▸ hu))]
    rw [hs]
    have hmid : List.Perm
        (List.filterMap (fun u => (lookupWeight rest u).map (fun x => (u, x))) s ++
          (k, w) :: List.filterMap (fun u => (lookupWeight rest u).map (fun x => (u, x))) t)
        ((k, w) :: (List.filterMap (fun u => (lookupWeight rest u).map (fun x => (u, x))) (s ++ t))) := by
      rw [List.filterMap_append]
      exact List.perm_middle
    refine hmid.trans (List.Perm.cons _ ?_)
    have hrestkeys : (rest.map Prod.fst).Nodup := (List.nodup_cons.mp (by simpa using hk)).2
    have hknotin : k ∉ rest.map Prod.fst := (List.nodup_cons.mp (by simpa using hk)).1
    refine ih (s ++ t) ?_ hrestkeys ?_
    · have hsub2 : (s ++ t).Sublist (s ++ k :: t) := by
        apply List.Sublist.append_left
        exact List.sublist_cons_self k t
      exact hv.sublist hsub2
    · intro k2 hk2
      have hk2v : k2 ∈ s ++ k :: t := hsub k2 (by simp [hk2])
      have hk2ne : k2 ≠ k := fun h => hknotin (h ▸ hk2)
      rcases List.mem_append.mp hk2v with h | h
      · exact List.mem_append.mpr (Or.inl h)
      · rcases List.mem_cons.mp h with h | h
        · exact absurd h hk2ne
        · exact List.mem_append.mpr (Or.inr h)

unseal List.merge List.mergeSort in
/-- C1 counterexample: on the logical neighbor row
`{3 ↦ weight 5, 2 ↦ weight 5}` (stored in that order), the `WeightedGraph`
branch of `Traversals._get_neighbors` returns `[3, 2]` (a stable sort by
weight only) while the `AdjacencyList` branch returns `[2, 3]` (sorted by
`(weight, key)`), so the representations do not produce identical neighbor
sequences and the `WeightedGraph` sequence is not sorted by
`(weight, key)`. -/
theorem c1_counterexample :
    traversalsGetNeighborsWeighted [(3, 5), (2, 5)] = [3, 2] ∧
    adjListGetNeighbors [(3, some 5), (2, some 5)] = [2, 3] ∧
    ([3, 2] : List Int) ≠ [2, 3] := by decide

/-- Claim C1 (amended): the `AdjacencyList` and `AdjacencyMatrix` branches
of the neighbor query return the vertex's neighbors sorted ascending by
`(weight, key)` with a null weight treated as `-maxsize` — the sorted pair
sequence is a permutation of the stored row and is `lexProp`-sorted — and
the two adjacency branches agree on the same logical graph; the query is a
pure function of the graph (no side effects).  The `WeightedGraph` branch
sorts by weight only (ties in storage order) and the `UnweightedGraph`
branch returns storage order, so the four representations need not
agree. -/
theorem c1_neighbor_query (row : List (Int × Option Int)) (verts : List Int)
    (hv : verts.Nodup) (hk : (row.map Prod.fst).Nodup)
    (hsub : ∀ k ∈ row.map Prod.fst, k ∈ verts) :
    List.Perm (adjListGetNeighborsPairs row)
      (row.map (fun p => (p.1, weightOrNegMax p.2))) ∧
    (adjListGetNeighborsPairs row).Pairwise lexProp ∧
    matrixGetNeighbors verts (buildRow verts row) = adjListGetNeighbors row := by
  refine ⟨List.mergeSort_perm _ _, sorted_mergeSort_lexLe _, ?_⟩
  unfold matrixGetNeighbors adjListGetNeighbors
  congr 1
  unfold adjListGetNeighborsPairs
  have h1 := matrixRowNeighbors_perm row verts hv hk hsub
  exact @List.eq_of_perm_of_sorted _ lexProp ⟨lexProp_antisymm⟩ _ _
    ((List.mergeSort_perm _ _).trans
      ((h1.map _).trans (List.mergeSort_perm _ _).symm))
    (sorted_mergeSort_lexLe _) (sorted_mergeSort_lexLe _)

/-- Witness for `c1_neighbor_query` on a concrete 3-vertex graph. -/
theorem c1_neighbor_query_witness :
    ([1, 2, 3] : List Int).Nodup ∧
    (([(2, some 4), (3, none)] : List (Int × Option Int)).map Prod.fst).Nodup ∧
    (List.Perm (adjListGetNeighborsPairs [(2, some 4), (3, none)])
      ([(2, some 4), (3, none)].map (fun p => (p.1, weightOrNegMax p.2))) ∧
    (adjListGetNeighborsPairs [(2, some 4), (3, none)]).Pairwise lexProp ∧
    matrixGetNeighbors [1, 2, 3] (buildRow [1, 2, 3] [(2, some 4), (3, none)]) =
      adjListGetNeighbors [(2, some 4), (3, none)]) :=
  ⟨by decide, by decide,
    c1_neighbor_query [(2, some 4), (3, none)] [1, 2, 3]
      (by decide) (by decide) (by decide)⟩

/-- C9 counterexample: in an `AdjacencyMatrix` whose vertices were inserted
in the order `5, 3`, the default start vertex is `5` (the minimum-*index*
key), not the minimum key `3` that the node graphs would pick. -/
theorem c9_counterexample :
    matrixGetStartVertex [5, 3] = some 5 ∧
    graphGetStartVertex [5, 3] = some 3 ∧ (5 : Int) ≠ 3 := by decide

/-- Python `min` over a nonempty list returns a minimal element. -/
theorem pyMin_is_min (v : Int) (vs : List Int) :
    ∃ m, pyMin (v :: vs) = some m ∧ m ∈ v :: vs ∧ ∀ x ∈ v :: vs, m ≤ x := by
  suffices h : ∀ (l : List Int) (a : Int),
      l.foldl min a ∈ a :: l ∧ l.foldl min a ≤ a ∧ ∀ x ∈ l, l.foldl min a ≤ x by
    obtain ⟨hmem, hle, hall⟩ := h vs v
    refine ⟨vs.foldl min v, rfl, hmem, ?_⟩
    intro x hx
    rcases List.mem_cons.mp hx with hx | hx
    · exact hx ▸ hle
    · exact hall x hx
  intro l
  induction l with
  | nil => intro a; simp
  | cons b bs ih =>
    intro a
    obtain ⟨hmem, hle, hall⟩ := ih (min a b)
    refine ⟨?_, ?_, ?_⟩
    · simp only [List.foldl_cons]
      rcases List.mem_cons.mp hmem with h | h
      · rcases min_choice a b with hc | hc
        · rw [h, hc]; exact List.mem_cons_self a _
        · rw [h, hc]; exact List.mem_cons.mpr (Or.inr (List.mem_cons_self b bs))
      · right; right; exact h
    · simp only [List.foldl_cons]
      exact le_trans hle (min_le_left a b)
    · intro x hx
      simp only [List.foldl_cons]
      rcases List.mem_cons.mp hx with hx | hx
      · subst hx; exact le_trans hle (min_le_right a x)
      · exact hall x hx

/-- Claim C9 (amended): the default start vertex is the minimum-keyed
vertex for `UnweightedGraph` / `WeightedGraph` (minimum node value) and for
`AdjacencyList` (minimum key), but for `AdjacencyMatrix` it is the key of
minimum index, i.e. the earliest-inserted surviving vertex, which need not
be the minimum key. -/
theorem c9_default_start_vertex (values keys : List Int) (v0 : Int)
    (vs : List Int) (hval : values ≠ []) (hkeys : keys ≠ []) :
    (∃ m, graphGetStartVertex values = some m ∧ m ∈ values ∧
      ∀ x ∈ values, m ≤ x) ∧
    (∃ m, adjListGetStartVertex keys = some m ∧ m ∈ keys ∧
      ∀ x ∈ keys, m ≤ x) ∧
    matrixGetStartVertex (v0 :: vs) = some v0 := by
  refine ⟨?_, ?_, rfl⟩
  · obtain ⟨a, as, rfl⟩ := List.exists_cons_of_ne_nil hval
    exact pyMin_is_min a as
  · obtain ⟨a, as, rfl⟩ := List.exists_cons_of_ne_nil hkeys
    exact pyMin_is_min a as

/-- Witness for `c9_default_start_vertex` on concrete vertex lists. -/
theorem c9_default_start_vertex_witness :
    ([2, 1] : List Int) ≠ [] ∧ ([3] : List Int) ≠ [] ∧
    ((∃ m, graphGetStartVertex [2, 1] = some m ∧ m ∈ ([2, 1] : List Int) ∧
      ∀ x ∈ ([2, 1] : List Int), m ≤ x) ∧
    (∃ m, adjListGetStartVertex [3] = some m ∧ m ∈ ([3] : List Int) ∧
      ∀ x ∈ ([3] : List Int), m ≤ x) ∧
    matrixGetStartVertex [5, 3] = some 5) :=
  ⟨by decide, by decide,
    c9_default_start_vertex [2, 1] [3] 5 [3] (by decide) (by decide)⟩

/-- Claim C10: two `UnweightedGraph`s (resp. `WeightedGraph`s) with the
same `directed` flag and the same vertex-key sets compare equal under `==`
regardless of their neighbor structures, because node equality and hashing
use the key alone and graph equality only checks vertex membership. -/
theorem c10_graph_equality_ignores_edges (g1 g2 : UGraph) (w1 w2 : WGraph)
    (hd : g1.directed = g2.directed)
    (hn1 : (g1.nodes.map UNode.value).Nodup)
    (hn2 : (g2.nodes.map UNode.value).Nodup)
    (hmem : ∀ k, k ∈ g1.nodes.map UNode.value ↔ k ∈ g2.nodes.map UNode.value)
    (hwd : w1.directed = w2.directed)
    (hw1 : (w1.nodes.map WNode.value).Nodup)
    (hw2 : (w2.nodes.map WNode.value).Nodup)
    (hwmem : ∀ k, k ∈ w1.nodes.map WNode.value ↔ k ∈ w2.nodes.map WNode.value) :
    ugraphEq g1 g2 = true ∧ wgraphEq w1 w2 = true := by
  have hlen : ∀ (l1 l2 : List Int), l1.Nodup → l2.Nodup →
      (∀ k, k ∈ l1 ↔ k ∈ l2) → l1.length = l2.length := by
    intro l1 l2 h1 h2 h
    exact le_antisymm
      ((h1.subperm (fun x hx => (h x).mp hx)).length_le)
      ((h2.subperm (fun x hx => (h x).mpr hx)).length_le)
  constructor
  · unfold ugraphEq
    rw [hd]
    simp only [beq_self_eq_true, Bool.true_and, Bool.and_eq_true, beq_iff_eq,
      List.all_eq_true, List.any_eq_true]
    constructor
    · have := hlen _ _ hn1 hn2 hmem
      simpa using this
    · intro n hn
      have : n.value ∈ g2.nodes.map UNode.value :=
        (hmem n.value).mp (List.mem_map_of_mem _ hn)
      obtain ⟨m, hm, hv⟩ := List.mem_map.mp this
      exact ⟨m, hm, by simp [hv]⟩
  · unfold wgraphEq
    rw [hwd]
    simp only [beq_self_eq_true, Bool.true_and, Bool.and_eq_true, beq_iff_eq,
      List.all_eq_true, List.any_eq_true]
    constructor
    · have := hlen _ _ hw1 hw2 hwmem
      simpa using this
    · intro n hn
      have : n.value ∈ w2.nodes.map WNode.value :=
        (hwmem n.value).mp (List.mem_map_of_mem _ hn)
      obtain ⟨m, hm, hv⟩ := List.mem_map.mp this
      exact ⟨m, hm, by simp [hv]⟩

/-- Witness for `c10_graph_equality_ignores_edges`: two undirected graphs
on keys `{1, 2}`, one with the edge `1-2` and one with no edges at all
(and similarly two weighted graphs with different edges), compare equal. -/
theorem c10_graph_equality_ignores_edges_witness :
    ugraphEq (UGraph.mk false false [UNode.mk 1 [2], UNode.mk 2 [1]])
      (UGraph.mk false false [UNode.mk 1 [], UNode.mk 2 []]) = true ∧
    wgraphEq (WGraph.mk false false 0 [WNode.mk 1 [(2, 7)], WNode.mk 2 [(1, 7)]])
      (WGraph.mk false false 0 [WNode.mk 1 [], WNode.mk 2 []]) = true :=
  c10_graph_equality_ignores_edges _ _ _ _ (by decide) (by decide) (by decide)
    (fun _ => Iff.rfl) (by decide) (by decide) (by decide) (fun _ => Iff.rfl)


/-- Iterating a fold over `List.range n` applies the function `n` times. -/
theorem foldl_range_const {α : Type} (f : α → α) :
    ∀ (n : Nat) (x : α), (List.range n).foldl (fun a _ => f a) x = f^[n] x := by
  intro n
  induction n with
  | zero => intro x; rfl
  | succ m ih =>
    intro x
    rw [List.range_succ, List.foldl_append]
    simp only [List.foldl_cons, List.foldl_nil]
    rw [ih, Function.iterate_succ_apply']

/-- Replacing a null edge weight by an explicit weight `0` leaves a single
relaxation step unchanged. -/
theorem relaxEdge_none_eq_zero (d : Int → Option Int)
    (e : Int × Int × Option Int) :
    relaxEdge d (e.1, e.2.1, some (e.2.2.getD 0)) = relaxEdge d e := rfl

/-- Replacing every null weight in the edge list by `0` leaves a full
relaxation pass unchanged. -/
theorem relaxPass_none_eq_zero (edges : List (Int × Int × Option Int))
    (d : Int → Option Int) :
    relaxPass (edges.map (fun e => (e.1, e.2.1, some (e.2.2.getD 0)))) d =
      relaxPass edges d := by
  unfold relaxPass
  induction edges generalizing d with
  | nil => rfl
  | cons e es ih =>
    simp only [List.map_cons, List.foldl_cons]
    rw [relaxEdge_none_eq_zero]
    exact ih _

/-- Claim C6: `bellman_ford` performs exactly `|V| - 1` relaxation passes
over the full edge list produced by `_get_edges` (stated as an iterate of
`relaxPass`), and relaxation treats every null-weight (unweighted) edge as
weight `0` (replacing null weights by `0` changes nothing). -/
theorem c6_bellman_ford_passes (g : List (Int × List (Int × Option Int)))
    (start : Int) :
    bellmanFord g start =
      (relaxPass (spGetEdges g))^[g.length - 1] (bfInit start) ∧
    (∀ (edges : List (Int × Int × Option Int)) (d : Int → Option Int),
      relaxPass (edges.map (fun e => (e.1, e.2.1, some (e.2.2.getD 0)))) d =
        relaxPass edges d) ∧
    (∀ (d : Int → Option Int) (v1 v2 : Int),
      relaxEdge d (v1, v2, none) = relaxEdge d (v1, v2, some 0)) := by
  refine ⟨?_, relaxPass_none_eq_zero, fun d v1 v2 => rfl⟩
  unfold bellmanFord
  exact foldl_range_const _ _ _


/-! ### Claim C7: phantom edge cleanup -/

/-- The unweighted measure is positive while `v` is still a neighbor. -/
theorem uMeasure_pos (ns : List (Int × Nat)) (v : Int)
    (h : uIsNeighbor ns v = true) : 0 < uMeasure ns v := by
  induction ns with
  | nil => simp [uIsNeighbor] at h
  | cons p rest ih =>
    simp only [uIsNeighbor, List.any_cons, Bool.or_eq_true, beq_iff_eq] at h
    simp only [uMeasure, List.map_cons, List.sum_cons]
    rcases h with h | h
    · rw [if_pos h]; omega
    · have hr := ih h
      unfold uMeasure at hr
      omega

theorem uMeasure_filter_eq_zero (ns : List (Int × Nat)) (v : Int) :
    uMeasure (ns.filter (fun p => p.1 != v)) v = 0 := by
  unfold uMeasure
  apply List.sum_eq_zero
  intro x hx
  obtain ⟨p, hp, rfl⟩ := List.mem_map.mp hx
  have hne := List.of_mem_filter hp
  simp only [bne_iff_ne, ne_eq] at hne
  rw [if_neg hne]

theorem uMeasure_uDecrement_lt (ns : List (Int × Nat)) (v : Int)
    (h : uIsNeighbor ns v = true) :
    uMeasure (uDecrement ns v) v < uMeasure ns v := by
  induction ns with
  | nil => simp [uIsNeighbor] at h
  | cons p rest ih =>
    simp only [uIsNeighbor, List.any_cons, Bool.or_eq_true, beq_iff_eq] at h
    unfold uDecrement
    by_cases hp : p.1 = v
    · rw [if_pos hp]
      by_cases hc : p.2 - 1 = 0
      · rw [if_pos hc]
        simp only [uMeasure, List.map_cons, List.sum_cons, if_pos hp]
        omega
      · rw [if_neg hc]
        simp only [uMeasure, List.map_cons, List.sum_cons, if_pos hp]
        omega
    · rw [if_neg hp]
      have hrest : uIsNeighbor rest v = true := by
        rcases h with h | h
        · exact absurd h hp
        · exact h
      have hr := ih hrest
      simp only [uMeasure, List.map_cons, List.sum_cons, if_neg hp]
      unfold uMeasure at hr
      omega

theorem uMeasure_remove_lt (multi : Bool) (ns : List (Int × Nat)) (v : Int)
    (h : uIsNeighbor ns v = true) :
    uMeasure (uRemoveNeighbor multi ns v) v < uMeasure ns v := by
  unfold uRemoveNeighbor
  cases multi with
  | false =>
    show uMeasure (ns.filter (fun p => p.1 != v)) v < uMeasure ns v
    rw [uMeasure_filter_eq_zero]
    exact uMeasure_pos ns v h
  | true =>
    show uMeasure (uDecrement ns v) v < uMeasure ns v
    exact uMeasure_uDecrement_lt ns v h

theorem uStripGo_not_neighbor (multi : Bool) (v : Int) :
    ∀ (fuel : Nat) (ns : List (Int × Nat)), uMeasure ns v < fuel →
      uIsNeighbor (uStripGo multi v fuel ns) v = false := by
  intro fuel
  induction fuel with
  | zero => intro ns h; omega
  | succ m ih =>
    intro ns h
    unfold uStripGo
    cases hn : uIsNeighbor ns v with
    | false => simpa using hn
    | true =>
      rw [if_pos rfl]
      exact ih _ (by have := uMeasure_remove_lt multi ns v hn; omega)

/-- The unweighted while loop exits only once `v` is no neighbor. -/
theorem uStrip_not_neighbor (multi : Bool) (ns : List (Int × Nat)) (v : Int) :
    uIsNeighbor (uStrip multi ns v) v = false :=
  uStripGo_not_neighbor multi v (uMeasure ns v + 1) ns (Nat.lt_succ_self _)

/-- The weighted analogues. -/
theorem wMeasure_pos (ns : List (Int × List Int)) (v : Int)
    (h : wIsNeighbor ns v = true) : 0 < wMeasure ns v := by
  induction ns with
  | nil => simp [wIsNeighbor] at h
  | cons p rest ih =>
    simp only [wIsNeighbor, List.any_cons, Bool.or_eq_true, beq_iff_eq] at h
    simp only [wMeasure, List.map_cons, List.sum_cons]
    rcases h with h | h
    · rw [if_pos h]; omega
    · have hr := ih h
      unfold wMeasure at hr
      omega

theorem wMeasure_filter_eq_zero (ns : List (Int × List Int)) (v : Int) :
    wMeasure (ns.filter (fun p => p.1 != v)) v = 0 := by
  unfold wMeasure
  apply List.sum_eq_zero
  intro x hx
  obtain ⟨p, hp, rfl⟩ := List.mem_map.mp hx
  have hne := List.of_mem_filter hp
  simp only [bne_iff_ne, ne_eq] at hne
  rw [if_neg hne]

/-- Python `max` over a nonempty list returns a member of the list. -/
theorem pyMax_mem (a : Int) (as : List Int) : as.foldl max a ∈ a :: as := by
  induction as generalizing a with
  | nil => simp
  | cons b bs ih =>
    simp only [List.foldl_cons]
    rcases List.mem_cons.mp (ih (max a b)) with h | h
    · rcases max_choice a b with hc | hc
      · rw [h, hc]; exact List.mem_cons_self _ _
      · rw [h, hc]; exact List.mem_cons.mpr (Or.inr (List.mem_cons_self _ _))
    · exact List.mem_cons.mpr (Or.inr (List.mem_cons.mpr (Or.inr h)))

theorem wMeasure_wDecrement_lt (ns : List (Int × List Int)) (v : Int)
    (h : wIsNeighbor ns v = true) :
    wMeasure (wDecrement ns v) v < wMeasure ns v := by
  induction ns with
  | nil => simp [wIsNeighbor] at h
  | cons p rest ih =>
    simp only [wIsNeighbor, List.any_cons, Bool.or_eq_true, beq_iff_eq] at h
    unfold wDecrement
    by_cases hp : p.1 = v
    · rw [if_pos hp]
      cases hpm : pyMax p.2 with
      | none =>
        dsimp only
        simp only [wMeasure, List.map_cons, List.sum_cons, if_pos hp]
        omega
      | some mx =>
        dsimp only
        have hmem : mx ∈ p.2 := by
          cases hw : p.2 with
          | nil => rw [hw] at hpm; simp [pyMax] at hpm
          | cons a as =>
            rw [hw] at hpm
            simp only [pyMax, Option.some_inj] at hpm
            rw [← hpm, ← hw]
            rw [hw]
            exact pyMax_mem a as
        have hlen : (p.2.erase mx).length = p.2.length - 1 :=
          List.length_erase_of_mem hmem
        have hpos : 0 < p.2.length := List.length_pos_of_mem hmem
        by_cases he : (p.2.erase mx).isEmpty
        · rw [if_pos he]
          simp only [wMeasure, List.map_cons, List.sum_cons, if_pos hp]
          omega
        · rw [if_neg he]
          simp only [wMeasure, List.map_cons, List.sum_cons, if_pos hp, hlen]
          omega
    · rw [if_neg hp]
      have hrest : wIsNeighbor rest v = true := by
        rcases h with h | h
        · exact absurd h hp
        · exact h
      have hr := ih hrest
      simp only [wMeasure, List.map_cons, List.sum_cons, if_neg hp]
      unfold wMeasure at hr
      omega

theorem wMeasure_remove_lt (multi : Bool) (ns : List (Int × List Int)) (v : Int)
    (h : wIsNeighbor ns v = true) :
    wMeasure (wRemoveNeighbor multi ns v) v < wMeasure ns v := by
  unfold wRemoveNeighbor
  cases multi with
  | false =>
    show wMeasure (ns.filter (fun p => p.1 != v)) v < wMeasure ns v
    rw [wMeasure_filter_eq_zero]
    exact wMeasure_pos ns v h
  | true =>
    show wMeasure (wDecrement ns v) v < wMeasure ns v
    exact wMeasure_wDecrement_lt ns v h

theorem wStripGo_not_neighbor (multi : Bool) (v : Int) :
    ∀ (fuel : Nat) (ns : List (Int × List Int)), wMeasure ns v < fuel →
      wIsNeighbor (wStripGo multi v fuel ns) v = false := by
  intro fuel
  induction fuel with
  | zero => intro ns h; omega
  | succ m ih =>
    intro ns h
    unfold wStripGo
    cases hn : wIsNeighbor ns v with
    | false => simpa using hn
    | true =>
      rw [if_pos rfl]
      exact ih _ (by have := wMeasure_remove_lt multi ns v hn; omega)

theorem wStrip_not_neighbor (multi : Bool) (ns : List (Int × List Int)) (v : Int) :
    wIsNeighbor (wStrip multi ns v) v = false :=
  wStripGo_not_neighbor multi v (wMeasure ns v + 1) ns (Nat.lt_succ_self _)


/-- Once a deletion has shortened the row below the remaining index range,
the `_update_edges` loop must hit an `IndexError` before finishing. -/
theorem updateRowGo_deficit (keys : List Int) :
    ∀ (steps i : Nat) (l : List (Int × Option Int)), 0 < steps →
      l.length < i + steps → updateRowGo keys i steps l = none := by
  intro steps
  induction steps with
  | zero => intro i l h; omega
  | succ m ih =>
    intro i l _ hlen
    unfold updateRowGo
    cases hg : l.get? i with
    | none => rfl
    | some e =>
      dsimp only
      obtain ⟨hi, -⟩ := List.get?_eq_some.mp hg
      by_cases hk : e.1 ∈ keys
      · rw [if_pos hk]
        rcases Nat.eq_zero_or_pos m with rfl | hm
        · omega
        · exact ih (i + 1) l hm (by omega)
      · rw [if_neg hk]
        rcases Nat.eq_zero_or_pos m with rfl | hm
        · omega
        · refine ih (i + 1) (l.eraseIdx i) hm ?_
          rw [List.length_eraseIdx_of_lt hi]
          omega

/-- A member of `l.take n` is a list entry with index below `n`. -/
theorem mem_take_get {α : Type} :
    ∀ (l : List α) (n : Nat) (x : α), x ∈ l.take n →
      ∃ (j : Nat) (hj : j < l.length), j < n ∧ l.get ⟨j, hj⟩ = x := by
  intro l
  induction l with
  | nil => intro n x hx; simp at hx
  | cons a as ih =>
    intro n x hx
    cases n with
    | zero => simp at hx
    | succ m =>
      rw [List.take_succ_cons] at hx
      rcases List.mem_cons.mp hx with h | h
      · exact ⟨0, by simp, by omega, h.symm⟩
      · obtain ⟨j, hj, hjm, hget⟩ := ih m x h
        exact ⟨j + 1, by simpa using hj, by omega, hget⟩

/-- If the `_update_edges` loop finishes without an `IndexError`, every
surviving entry's key is among the remaining vertex keys. -/
theorem updateRowGo_good (keys : List Int) :
    ∀ (steps i : Nat) (l l' : List (Int × Option Int)),
      l.length = i + steps →
      (∀ (j : Nat) (hj : j < l.length), j < i → (l.get ⟨j, hj⟩).1 ∈ keys) →
      updateRowGo keys i steps l = some l' →
      ∀ e ∈ l', e.1 ∈ keys := by
  intro steps
  induction steps with
  | zero =>
    intro i l l' hlen hpre h e he
    unfold updateRowGo at h
    obtain rfl : l = l' := Option.some_inj.mp h
    obtain ⟨⟨j, hj⟩, hget⟩ := List.mem_iff_get.mp he
    rw [← hget]
    exact hpre j hj (by omega)
  | succ m ih =>
    intro i l l' hlen hpre h
    unfold updateRowGo at h
    have hi : i < l.length := by omega
    rw [List.get?_eq_get hi] at h
    dsimp only at h
    by_cases hk : (l.get ⟨i, hi⟩).1 ∈ keys
    · rw [if_pos hk] at h
      refine ih (i + 1) l l' (by omega) ?_ h
      intro j hj hji
      rcases Nat.lt_or_ge j i with hlt | hge
      · exact hpre j hj hlt
      · have hej : j = i := by omega
        subst hej
        exact hk
    · rw [if_neg hk] at h
      rcases Nat.eq_zero_or_pos m with rfl | hm
      · unfold updateRowGo at h
        obtain rfl : l.eraseIdx i = l' := Option.some_inj.mp h
        intro e he
        rw [List.eraseIdx_eq_take_drop_succ] at he
        rw [List.drop_eq_nil_of_le (by omega), List.append_nil] at he
        obtain ⟨j, hj, hji, hget⟩ := mem_take_get l i e he
        rw [← hget]
        exact hpre j hj hji
      · have hnone := updateRowGo_deficit keys m (i + 1) (l.eraseIdx i) hm
          (by rw [List.length_eraseIdx_of_lt hi]; omega)
        rw [hnone] at h
        exact absurd h (by simp)

theorem updateRow_good (keys : List Int) (l l' : List (Int × Option Int))
    (h : updateRow keys l = some l') : ∀ e ∈ l', e.1 ∈ keys := by
  refine updateRowGo_good keys l.length 0 l l' (by omega) ?_ h
  intro j hj hji
  omega

theorem updateEdges_good (rows rows' : List (Int × List (Int × Option Int)))
    (h : updateEdges rows = some rows') :
    ∀ r ∈ rows', ∀ e ∈ r.2, e.1 ∈ rows.map Prod.fst := by
  unfold updateEdges at h
  suffices hgen : ∀ (rs rs' : List (Int × List (Int × Option Int)))
      (keys : List Int),
      rs.mapM (fun r => (updateRow keys r.2).map (fun l => (r.1, l))) = some rs' →
      ∀ r ∈ rs', ∀ e ∈ r.2, e.1 ∈ keys by
    exact hgen rows rows' (rows.map Prod.fst) h
  intro rs
  induction rs with
  | nil =>
    intro rs' keys h r hr
    simp only [List.mapM_nil] at h
    obtain rfl : ([] : List (Int × List (Int × Option Int))) = rs' :=
      Option.some_inj.mp h
    simp at hr
  | cons r0 rest ih =>
    intro rs' keys h r hr
    rw [List.mapM_cons] at h
    cases hu : updateRow keys r0.2 with
    | none => rw [hu] at h; exact absurd h (by simp)
    | some l0 =>
      rw [hu] at h
      cases hrest : rest.mapM (fun r => (updateRow keys r.2).map (fun l => (r.1, l))) with
      | none => rw [hrest] at h; exact absurd h (by simp)
      | some rest' =>
        rw [hrest] at h
        obtain rfl : (r0.1, l0) :: rest' = rs' := by
          simpa using h
        rcases List.mem_cons.mp hr with hr0 | hr0
        · subst hr0
          intro e he
          exact updateRow_good keys r0.2 l0 hu e he
        · exact ih rest' keys hrest r hr0

/-- Nodup vertex keys: erasing the index found for `v` removes `v`. -/
theorem not_mem_eraseIdx_indexOf (l : List Int) (v : Int) :
    ∀ (i : Nat), l.Nodup → l.indexOf? v = some i → v ∉ l.eraseIdx i := by
  induction l with
  | nil => intro i _ h; simp [List.indexOf?_nil] at h
  | cons a as ih =>
    intro i hnd h
    rw [List.indexOf?_cons] at h
    by_cases ha : a == v
    · rw [if_pos ha] at h
      obtain rfl : (0 : Nat) = i := Option.some_inj.mp h
      show v ∉ as
      have hav : a = v := by simpa using ha
      subst hav
      exact (List.nodup_cons.mp hnd).1
    · rw [if_neg ha] at h
      cases has : as.indexOf? v with
      | none => rw [has] at h; exact absurd h (by simp)
      | some j =>
        rw [has] at h
        simp only [Option.map_some'] at h
        obtain rfl : j.succ = i := Option.some_inj.mp h
        show v ∉ a :: as.eraseIdx j
        intro hmem
        rcases List.mem_cons.mp hmem with hmem | hmem
        · exact absurd (by simpa using hmem.symm : (a == v) = true) (by simpa using ha)
        · exact ih j (List.nodup_cons.mp hnd).2 has hmem

/-- Keys produced by the matrix neighbor scan all come from the vertex
list. -/
theorem matrixRowNeighbors_keys_mem (verts : List Int) (row : List Int)
    (p : Int × Option Int) (hp : p ∈ matrixRowNeighbors verts row) :
    p.1 ∈ verts := by
  unfold matrixRowNeighbors at hp
  obtain ⟨q, hq, hqp⟩ := List.mem_filterMap.mp hp
  by_cases h2 : q.2 ≠ 0
  · rw [if_pos h2] at hqp
    obtain rfl : (q.1, decodeCell q.2) = p := Option.some_inj.mp hqp
    exact (List.of_mem_zip hq).1
  · rw [if_neg h2] at hqp
    exact absurd hqp (by simp)

/-- Claim C7: in every representation, after `remove_vertex(v)` returns
successfully no remaining vertex retains a neighbor entry referencing `v`:
the node graphs strip `v` from every remaining node, a successful
`AdjacencyList._update_edges` leaves only entries whose key is a surviving
vertex, and the matrix loses `v`'s row and column so no neighbor scan can
mention `v` again. -/
theorem c7_remove_vertex_phantom_cleanup
    (gu gu' : UGraphM) (gw gw' : WGraphM) (ga ga' : AList) (m m' : AdjMatrix)
    (v : Int)
    (hu : uRemoveVertex gu v = some gu')
    (hw : wRemoveVertex gw v = some gw')
    (ha : aListRemoveVertex ga v = some ga')
    (hvn : m.verts.Nodup) (hm : m.removeVertex v = some m') :
    (∀ n ∈ gu'.nodes, uIsNeighbor n.neighbors v = false) ∧
    (∀ n ∈ gw'.nodes, wIsNeighbor n.neighbors v = false) ∧
    (∀ r ∈ ga'.rows, ∀ e ∈ r.2, e.1 ≠ v) ∧
    (∀ row ∈ m'.mat, ∀ p ∈ matrixRowNeighbors m'.verts row, p.1 ≠ v) := by
  refine ⟨?_, ?_, ?_, ?_⟩
  · unfold uRemoveVertex at hu
    by_cases hc : gu.nodes.any (fun n => n.value == v)
    · rw [if_pos hc] at hu
      obtain rfl := Option.some_inj.mp hu
      intro n hn
      obtain ⟨n0, _, rfl⟩ := List.mem_map.mp hn
      exact uStrip_not_neighbor _ _ _
    · rw [if_neg hc] at hu
      exact absurd hu (by simp)
  · unfold wRemoveVertex at hw
    by_cases hc : gw.nodes.any (fun n => n.value == v)
    · rw [if_pos hc] at hw
      obtain rfl := Option.some_inj.mp hw
      intro n hn
      obtain ⟨n0, _, rfl⟩ := List.mem_map.mp hn
      exact wStrip_not_neighbor _ _ _
    · rw [if_neg hc] at hw
      exact absurd hw (by simp)
  · unfold aListRemoveVertex at ha
    by_cases hc : (ga.rows.map Prod.fst).contains v
    · rw [if_pos hc] at ha
      cases hue : updateEdges (ga.rows.filter (fun r => r.1 != v)) with
      | none => rw [hue] at ha; exact absurd ha (by simp)
      | some rows0 =>
        rw [hue] at ha
        simp only [Option.map_some'] at ha
        obtain rfl := Option.some_inj.mp ha
        intro r hr e he
        have hkey := updateEdges_good _ rows0 hue r hr e he
        obtain ⟨r1, hr1, hr1e⟩ := List.mem_map.mp hkey
        have hne := List.of_mem_filter hr1
        simp only [bne_iff_ne, ne_eq] at hne
        intro hev
        exact hne (hr1e.trans hev)
    · rw [if_neg hc] at ha
      exact absurd ha (by simp)
  · unfold AdjMatrix.removeVertex at hm
    cases hidx : m.verts.indexOf? v with
    | none => rw [hidx] at hm; exact absurd hm (by simp)
    | some i =>
      rw [hidx] at hm
      dsimp only at hm
      obtain rfl := Option.some_inj.mp hm
      intro row hrow p hp
      have hpv := matrixRowNeighbors_keys_mem _ _ _ hp
      intro hev
      exact not_mem_eraseIdx_indexOf m.verts v i hvn hidx (hev ▸ hpv)

/-- Witness for `c7_remove_vertex_phantom_cleanup` on concrete 2-vertex
graphs in each representation. -/
theorem c7_remove_vertex_phantom_cleanup_witness :
    uRemoveVertex (UGraphM.mk false false [UNodeM.mk 1 [(2, 1)], UNodeM.mk 2 [(1, 1)]]) 2 =
      some (UGraphM.mk false false [UNodeM.mk 1 []]) ∧
    wRemoveVertex (WGraphM.mk false true [WNodeM.mk 1 [(2, [4, 7])], WNodeM.mk 2 [(1, [4, 7])]]) 2 =
      some (WGraphM.mk false true [WNodeM.mk 1 []]) ∧
    aListRemoveVertex (AList.mk false false [(1, [(2, none)]), (2, [(1, none)])]) 2 =
      some (AList.mk false false [(1, [])]) ∧
    AdjMatrix.removeVertex (AdjMatrix.mk [1, 2] [[0, 1], [1, 0]] false) 2 =
      some (AdjMatrix.mk [1] [[0]] false) ∧
    ((∀ n ∈ (UGraphM.mk false false [UNodeM.mk 1 []]).nodes,
        uIsNeighbor n.neighbors 2 = false) ∧
      (∀ n ∈ (WGraphM.mk false true [WNodeM.mk 1 []]).nodes,
        wIsNeighbor n.neighbors 2 = false) ∧
      (∀ r ∈ (AList.mk false false [(1, [])]).rows, ∀ e ∈ r.2, e.1 ≠ 2) ∧
      (∀ row ∈ (AdjMatrix.mk [1] [[0]] false).mat,
        ∀ p ∈ matrixRowNeighbors (AdjMatrix.mk [1] [[0]] false).verts row,
          p.1 ≠ 2)) :=
  ⟨by decide, by decide, by decide, by decide,
    c7_remove_vertex_phantom_cleanup
      (UGraphM.mk false false [UNodeM.mk 1 [(2, 1)], UNodeM.mk 2 [(1, 1)]])
      (UGraphM.mk false false [UNodeM.mk 1 []])
      (WGraphM.mk false true [WNodeM.mk 1 [(2, [4, 7])], WNodeM.mk 2 [(1, [4, 7])]])
      (WGraphM.mk false true [WNodeM.mk 1 []])
      (AList.mk false false [(1, [(2, none)]), (2, [(1, none)])])
      (AList.mk false false [(1, [])])
      (AdjMatrix.mk [1, 2] [[0, 1], [1, 0]] false)
      (AdjMatrix.mk [1] [[0]] false)
      2 (by decide) (by decide) (by decide) (by decide) (by decide)⟩


/-! ### Claims C3 and C5: minimum spanning trees -/

unseal List.merge List.mergeSort in
/-- C3, the code evaluated at the failing input: on the undirected weighted
graph with edges (1,2,1), (2,3,2), (1,3,3), Prim's MST reports total weight
3, but Kruskal's raises an `IndexError` inside `_find_set`: the union-find
parent table is the sorted key list `[1, 2, 3]` indexed by vertex *key*, so
find(1) reads `nodes[1] = 2`, then `nodes[2] = 3`, then `nodes[3]`, which
is out of range. -/
theorem c3_mst_scenario :
    primsW (WGraph.mk false false 0
      [WNode.mk 1 [(2, 1), (3, 3)], WNode.mk 2 [(1, 1), (3, 2)],
        WNode.mk 3 [(2, 2), (1, 3)]]) 1 =
      Except.ok (3, [(1, 2, 1), (2, 3, 2)]) ∧
    kruskalsW (WGraph.mk false false 0
      [WNode.mk 1 [(2, 1), (3, 3)], WNode.mk 2 [(1, 1), (3, 2)],
        WNode.mk 3 [(2, 2), (1, 3)]]) =
      Except.error AlgError.indexError ∧
    findSet [1, 2, 3] 4 1 = none := by decide

unseal List.merge List.mergeSort in
/-- C5 counterexample: on the disconnected undirected weighted graph with
vertices {1, 2, 3} and the single edge (1,2), `kruskals_mst` does not
return a forest — it raises an `IndexError` (the union-find table is
indexed by position but read with vertex keys). -/
theorem c5_counterexample :
    kruskalsW (WGraph.mk false false 0
      [WNode.mk 1 [(2, 4)], WNode.mk 2 [(1, 4)], WNode.mk 3 []]) =
      Except.error AlgError.indexError := by decide

/-- The MST edge list really is sorted ascending by weight. -/
theorem mstGetEdgesW_sorted (g : WGraph) :
    ((mstGetEdgesW g).map (fun e => e.2.2)).Pairwise (fun a b => a ≤ b) := by
  unfold mstGetEdgesW
  rw [List.pairwise_map, List.pairwise_map]
  have h := @List.sorted_mergeSort _ mstWeightLe
    (fun a b c hab hbc => by
      simp only [mstWeightLe, decide_eq_true_eq] at hab hbc ⊢
      omega)
    (fun a b => by
      simp only [mstWeightLe, Bool.or_eq_true, decide_eq_true_eq]
      omega)
    (g.nodes.foldl
      (fun acc n => n.neighbors.foldl (fun a e => mstInsertEdge a n.value e) acc) [])
  exact h.imp (fun hab => by
    simpa only [mstWeightLe, decide_eq_true_eq] using hab)

/-- Every edge extracted from an `UnweightedGraph` carries implicit
weight 1. -/
theorem mstGetEdgesU_weight_one (gu : UGraph) :
    ∀ e ∈ mstGetEdgesU gu, e.2.2 = 1 := by
  unfold mstGetEdgesU
  intro e he
  obtain ⟨p, hp, rfl⟩ := List.mem_map.mp he
  show p.2 = 1
  have hp2 := ((List.mergeSort_perm _ mstWeightLe).mem_iff).mp hp
  suffices h : ∀ (ns : List UNode) (acc : List ((Int × Int) × Int)),
      (∀ q ∈ acc, q.2 = 1) →
      ∀ q ∈ ns.foldl
        (fun acc n => n.neighbors.foldl (fun a e => mstInsertEdge a n.value (e, 1)) acc)
        acc, q.2 = 1 by
    exact h gu.nodes [] (by simp) p hp2
  have hone : ∀ (ks : List Int) (v : Int) (acc : List ((Int × Int) × Int)),
      (∀ q ∈ acc, q.2 = 1) →
      ∀ q ∈ ks.foldl (fun a e => mstInsertEdge a v (e, 1)) acc, q.2 = 1 := by
    intro ks
    induction ks with
    | nil => intro v acc hacc q hq; exact hacc q hq
    | cons k rest ih =>
      intro v acc hacc q hq
      refine ih v (mstInsertEdge acc v (k, 1)) ?_ q hq
      intro r hr
      unfold mstInsertEdge at hr
      by_cases hc : acc.any (fun p => decide (p.1 = (v, k) ∨ p.1 = (k, v)))
      · rw [if_pos hc] at hr
        exact hacc r hr
      · rw [if_neg hc] at hr
        rcases List.mem_append.mp hr with h1 | h1
        · exact hacc r h1
        · simp only [List.mem_singleton] at h1
          rw [h1]
  intro ns
  induction ns with
  | nil => intro acc hacc q hq; exact hacc q hq
  | cons n rest ih =>
    intro acc hacc q hq
    exact ih _ (fun r hr => hone n.neighbors n.value acc hacc r hr) q hq

unseal List.merge List.mergeSort in
/-- Claim C5 (amended): on a directed graph `kruskals_mst` raises
`UnsupportedGraphTypeError`.  On an undirected graph it considers the
edges in ascending order of weight (unweighted edges of the node-graph
representation get implicit weight 1), adds an edge exactly when its
union-find roots differ, merging by rank *without* path compression
(`_find_set` never writes the table), and stops once `|V| - 1` edges are
chosen or the edge list is exhausted; but the union-find table is a list
indexed by position while find/union read it by vertex key, so the run
completes (returning a forest on disconnected input) when the vertex keys
are exactly 0..|V|-1 and may raise an `IndexError` for other key sets. -/
theorem c5_kruskal_behavior (gd g : WGraph) (gu : UGraph)
    (hd : gd.directed = true) :
    kruskalsW gd = Except.error AlgError.unsupportedGraphType ∧
    ((mstGetEdgesW g).map (fun e => e.2.2)).Pairwise (fun a b => a ≤ b) ∧
    (∀ e ∈ mstGetEdgesU gu, e.2.2 = 1) ∧
    kruskalsW (WGraph.mk false false 0
      [WNode.mk 0 [(1, 5)], WNode.mk 1 [(0, 5)], WNode.mk 2 []]) =
      Except.ok (5, [(0, 1, 5)]) ∧
    kruskalsW (WGraph.mk false false 0
      [WNode.mk 1 [(2, 4)], WNode.mk 2 [(1, 4)]]) =
      Except.error AlgError.indexError := by
  refine ⟨?_, mstGetEdgesW_sorted g, mstGetEdgesU_weight_one gu,
    by decide, by decide⟩
  unfold kruskalsW
  rw [hd]
  rfl

/-- Witness for `c5_kruskal_behavior` at concrete graphs. -/
theorem c5_kruskal_behavior_witness :
    (WGraph.mk true false 0 [WNode.mk 1 [(2, 9)]]).directed = true ∧
    (kruskalsW (WGraph.mk true false 0 [WNode.mk 1 [(2, 9)]]) =
      Except.error AlgError.unsupportedGraphType ∧
    ((mstGetEdgesW (WGraph.mk false false 0
        [WNode.mk 1 [(2, 9)], WNode.mk 2 [(1, 9)]])).map (fun e => e.2.2)).Pairwise
      (fun a b => a ≤ b) ∧
    (∀ e ∈ mstGetEdgesU (UGraph.mk false false [UNode.mk 1 [2], UNode.mk 2 [1]]),
      e.2.2 = 1) ∧
    kruskalsW (WGraph.mk false false 0
      [WNode.mk 0 [(1, 5)], WNode.mk 1 [(0, 5)], WNode.mk 2 []]) =
      Except.ok (5, [(0, 1, 5)]) ∧
    kruskalsW (WGraph.mk false false 0
      [WNode.mk 1 [(2, 4)], WNode.mk 2 [(1, 4)]]) =
      Except.error AlgError.indexError) :=
  ⟨rfl, c5_kruskal_behavior (WGraph.mk true false 0 [WNode.mk 1 [(2, 9)]])
    (WGraph.mk false false 0 [WNode.mk 1 [(2, 9)], WNode.mk 2 [(1, 9)]])
    (UGraph.mk false false [UNode.mk 1 [2], UNode.mk 2 [1]]) rfl⟩


/-! ### Claim C2: full traversals -/

/-- `foldl max` dominates the start and every element. -/
theorem le_foldl_max :
    ∀ (l : List Nat) (a : Nat), a ≤ l.foldl max a ∧ ∀ x ∈ l, x ≤ l.foldl max a := by
  intro l
  induction l with
  | nil => intro a; exact ⟨Nat.le_refl a, by simp⟩
  | cons b bs ih =>
    intro a
    obtain ⟨h1, h2⟩ := ih (max a b)
    refine ⟨?_, ?_⟩
    · simp only [List.foldl_cons]
      exact le_trans (Nat.le_max_left a b) h1
    · intro x hx
      simp only [List.foldl_cons]
      rcases List.mem_cons.mp hx with hx | hx
      · subst hx; exact le_trans (Nat.le_max_right a x) h1
      · exact h2 x hx

/-- Every present vertex's neighbor list length is at most `maxAdj`. -/
theorem length_adj_le_maxAdj (g : TGraph) (t : Int) (ht : t ∈ g.verts) :
    (g.adj t).length ≤ maxAdj g :=
  (le_foldl_max _ 0).2 _ (List.mem_map_of_mem _ ht)

/-- A pointwise-stronger filter keeps at most as many elements. -/
theorem length_filter_mono {α : Type} (p q : α → Bool) :
    ∀ (l : List α), (∀ x ∈ l, q x = true → p x = true) →
      (l.filter q).length ≤ (l.filter p).length := by
  intro l
  induction l with
  | nil => intro h; simp
  | cons a as ih =>
    intro h
    have hrec := ih (fun x hx => h x (List.mem_cons.mpr (Or.inr hx)))
    by_cases hq : q a
    · rw [List.filter_cons_of_pos hq,
        List.filter_cons_of_pos (h a (List.mem_cons_self a as) hq)]
      simpa using hrec
    · rw [List.filter_cons_of_neg (by simpa using hq)]
      by_cases hp : p a
      · rw [List.filter_cons_of_pos hp]
        exact le_trans hrec (by simp)
      · rw [List.filter_cons_of_neg (by simpa using hp)]
        exact hrec

/-- Visiting a growing set leaves at most as many unvisited vertices. -/
theorem unvisitedCount_mono (g : TGraph) (a b : List Int)
    (h : ∀ x ∈ a, x ∈ b) : unvisitedCount g b ≤ unvisitedCount g a := by
  apply length_filter_mono
  intro x _ hq
  simp only [decide_eq_true_eq] at hq ⊢
  intro hxa
  exact hq (h x hxa)

/-- Marking a fresh element visited strictly shrinks the filtered count. -/
theorem length_filter_append_lt (vis : List Int) (t : Int) :
    ∀ (l : List Int), t ∈ l → t ∉ vis →
    (l.filter (fun v => decide (¬ v ∈ vis ++ [t]))).length <
      (l.filter (fun v => decide (¬ v ∈ vis))).length := by
  intro l
  induction l with
  | nil => intro ht; simp at ht
  | cons a as ih =>
    intro ht hnv
    by_cases hat : a = t
    · subst hat
      rw [List.filter_cons_of_neg (by simp), List.filter_cons_of_pos (by simp [hnv])]
      have hm := length_filter_mono
        (fun v => decide (¬ v ∈ vis)) (fun v => decide (¬ v ∈ vis ++ [a])) as
        (by
          intro x _ hq
          simp only [decide_eq_true_eq, List.mem_append] at hq ⊢
          intro hx
          exact hq (Or.inl hx))
      simpa using Nat.lt_succ_of_le hm
    · have hts : t ∈ as := by
        rcases List.mem_cons.mp ht with h | h
        · exact absurd h.symm hat
        · exact h
      have hmem : (a ∈ vis ++ [t]) ↔ (a ∈ vis) := by
        simp only [List.mem_append, List.mem_singleton]
        constructor
        · intro h2
          rcases h2 with h2 | h2
          · exact h2
          · exact absurd h2 hat
        · intro h2; exact Or.inl h2
      have heq : (decide (¬ a ∈ vis ++ [t])) = (decide (¬ a ∈ vis)) := by
        simp only [decide_eq_decide]
        exact not_congr hmem
      cases hpa : decide (¬ a ∈ vis) with
      | false =>
        rw [List.filter_cons_of_neg (by rw [heq, hpa]; simp),
          List.filter_cons_of_neg (by rw [hpa]; simp)]
        exact ih hts hnv
      | true =>
        rw [List.filter_cons_of_pos (by rw [heq, hpa]),
          List.filter_cons_of_pos (by rw [hpa])]
        simpa using ih hts hnv

/-- Visiting a new present vertex strictly shrinks the unvisited count. -/
theorem unvisitedCount_append_lt (g : TGraph) (vis : List Int) (t : Int)
    (ht : t ∈ g.verts) (hnv : t ∉ vis) :
    unvisitedCount g (vis ++ [t]) < unvisitedCount g vis :=
  length_filter_append_lt vis t g.verts ht hnv


theorem bftLoop_nil (g : TGraph) (fuel : Nat) (visited : List Int) :
    bftLoop g fuel [] visited = some visited := by
  cases fuel <;> rfl

theorem bftLoop_cons (g : TGraph) (fuel : Nat) (t : Int)
    (queue visited : List Int) :
    bftLoop g (fuel + 1) (t :: queue) visited =
      if t ∈ visited then bftLoop g fuel queue visited
      else bftLoop g fuel (queue ++ g.adj t) (visited ++ [t]) := rfl

/-- `bftLoop` only ever appends to the visited list. -/
theorem bftLoop_mono (g : TGraph) :
    ∀ (fuel : Nat) (q vis vis2 : List Int),
      bftLoop g fuel q vis = some vis2 → ∀ x ∈ vis, x ∈ vis2 := by
  intro fuel
  induction fuel with
  | zero =>
    intro q vis vis2 h
    cases q with
    | nil =>
      rw [bftLoop_nil] at h
      obtain rfl := Option.some_inj.mp h
      exact fun x hx => hx
    | cons t rest => exact absurd h (by simp [bftLoop])
  | succ m ih =>
    intro q vis vis2 h
    cases q with
    | nil =>
      rw [bftLoop_nil] at h
      obtain rfl := Option.some_inj.mp h
      exact fun x hx => hx
    | cons t rest =>
      rw [bftLoop_cons] at h
      by_cases hm : t ∈ vis
      · rw [if_pos hm] at h
        exact ih rest vis vis2 h
      · rw [if_neg hm] at h
        intro x hx
        exact ih _ _ _ h x (List.mem_append.mpr (Or.inl hx))

/-- `bftLoop` never records a vertex twice. -/
theorem bftLoop_nodup (g : TGraph) :
    ∀ (fuel : Nat) (q vis vis2 : List Int), vis.Nodup →
      bftLoop g fuel q vis = some vis2 → vis2.Nodup := by
  intro fuel
  induction fuel with
  | zero =>
    intro q vis vis2 hnd h
    cases q with
    | nil =>
      rw [bftLoop_nil] at h
      obtain rfl := Option.some_inj.mp h
      exact hnd
    | cons t rest => exact absurd h (by simp [bftLoop])
  | succ m ih =>
    intro q vis vis2 hnd h
    cases q with
    | nil =>
      rw [bftLoop_nil] at h
      obtain rfl := Option.some_inj.mp h
      exact hnd
    | cons t rest =>
      rw [bftLoop_cons] at h
      by_cases hm : t ∈ vis
      · rw [if_pos hm] at h
        exact ih rest vis vis2 hnd h
      · rw [if_neg hm] at h
        refine ih _ _ _ ?_ h
        refine hnd.append (List.nodup_singleton t) ?_
        intro a ha
        simp only [List.mem_singleton]
        intro hat
        exact hm (hat ▸ ha)

/-- Everything `bftLoop` visits is reachable from anything that reaches
the initial visited list and queue. -/
theorem bftLoop_sound (g : TGraph) (s : Int) :
    ∀ (fuel : Nat) (q vis vis2 : List Int),
      (∀ x ∈ vis, Reach g s x) → (∀ x ∈ q, Reach g s x) →
      bftLoop g fuel q vis = some vis2 → ∀ x ∈ vis2, Reach g s x := by
  intro fuel
  induction fuel with
  | zero =>
    intro q vis vis2 hv hq h
    cases q with
    | nil =>
      rw [bftLoop_nil] at h
      obtain rfl := Option.some_inj.mp h
      exact hv
    | cons t rest => exact absurd h (by simp [bftLoop])
  | succ m ih =>
    intro q vis vis2 hv hq h
    cases q with
    | nil =>
      rw [bftLoop_nil] at h
      obtain rfl := Option.some_inj.mp h
      exact hv
    | cons t rest =>
      rw [bftLoop_cons] at h
      by_cases hm : t ∈ vis
      · rw [if_pos hm] at h
        exact ih rest vis vis2 hv (fun x hx => hq x (List.mem_cons.mpr (Or.inr hx))) h
      · rw [if_neg hm] at h
        have hreacht : Reach g s t := hq t (List.mem_cons_self t rest)
        refine ih _ _ _ ?_ ?_ h
        · intro x hx
          rcases List.mem_append.mp hx with hx | hx
          · exact hv x hx
          · simp only [List.mem_singleton] at hx
            exact hx ▸ hreacht
        · intro x hx
          rcases List.mem_append.mp hx with hx | hx
          · exact hq x (List.mem_cons.mpr (Or.inr hx))
          · exact Relation.ReflTransGen.tail hreacht hx

/-- `bftLoop` visits only present vertices (given well-formedness). -/
theorem bftLoop_subset (g : TGraph) (hwf : TGraph.WF g) :
    ∀ (fuel : Nat) (q vis vis2 : List Int),
      (∀ x ∈ q, x ∈ g.verts) → (∀ x ∈ vis, x ∈ g.verts) →
      bftLoop g fuel q vis = some vis2 → ∀ x ∈ vis2, x ∈ g.verts := by
  intro fuel
  induction fuel with
  | zero =>
    intro q vis vis2 hq hv h
    cases q with
    | nil =>
      rw [bftLoop_nil] at h
      obtain rfl := Option.some_inj.mp h
      exact hv
    | cons t rest => exact absurd h (by simp [bftLoop])
  | succ m ih =>
    intro q vis vis2 hq hv h
    cases q with
    | nil =>
      rw [bftLoop_nil] at h
      obtain rfl := Option.some_inj.mp h
      exact hv
    | cons t rest =>
      rw [bftLoop_cons] at h
      have htv : t ∈ g.verts := hq t (List.mem_cons_self t rest)
      by_cases hm : t ∈ vis
      · rw [if_pos hm] at h
        exact ih rest vis vis2 (fun x hx => hq x (List.mem_cons.mpr (Or.inr hx))) hv h
      · rw [if_neg hm] at h
        refine ih _ _ _ ?_ ?_ h
        · intro x hx
          rcases List.mem_append.mp hx with hx | hx
          · exact hq x (List.mem_cons.mpr (Or.inr hx))
          · exact hwf t htv x hx
        · intro x hx
          rcases List.mem_append.mp hx with hx | hx
          · exact hv x hx
          · simp only [List.mem_singleton] at hx
            exact hx ▸ htv

/-- When `bftLoop` drains its queue, the visited list is closed under the
neighbor query. -/
theorem bftLoop_closed (g : TGraph) :
    ∀ (fuel : Nat) (q vis vis2 : List Int),
      (∀ x ∈ vis, ∀ u ∈ g.adj x, u ∈ vis ∨ u ∈ q) →
      bftLoop g fuel q vis = some vis2 →
      ∀ x ∈ vis2, ∀ u ∈ g.adj x, u ∈ vis2 := by
  intro fuel
  induction fuel with
  | zero =>
    intro q vis vis2 hinv h
    cases q with
    | nil =>
      rw [bftLoop_nil] at h
      obtain rfl := Option.some_inj.mp h
      intro x hx u hu
      rcases hinv x hx u hu with hc | hc
      · exact hc
      · simp at hc
    | cons t rest => exact absurd h (by simp [bftLoop])
  | succ m ih =>
    intro q vis vis2 hinv h
    cases q with
    | nil =>
      rw [bftLoop_nil] at h
      obtain rfl := Option.some_inj.mp h
      intro x hx u hu
      rcases hinv x hx u hu with hc | hc
      · exact hc
      · simp at hc
    | cons t rest =>
      rw [bftLoop_cons] at h
      by_cases hm : t ∈ vis
      · rw [if_pos hm] at h
        refine ih rest vis vis2 ?_ h
        intro x hx u hu
        rcases hinv x hx u hu with hc | hc
        · exact Or.inl hc
        · rcases List.mem_cons.mp hc with hc | hc
          · exact Or.inl (hc ▸ hm)
          · exact Or.inr hc
      · rw [if_neg hm] at h
        refine ih _ _ _ ?_ h
        intro x hx u hu
        rcases List.mem_append.mp hx with hx | hx
        · rcases hinv x hx u hu with hc | hc
          · exact Or.inl (List.mem_append.mpr (Or.inl hc))
          · rcases List.mem_cons.mp hc with hc | hc
            · exact Or.inl (List.mem_append.mpr (Or.inr (by simp [hc])))
            · exact Or.inr (List.mem_append.mpr (Or.inl hc))
        · simp only [List.mem_singleton] at hx
          subst hx
          exact Or.inr (List.mem_append.mpr (Or.inr hu))

/-- Sufficient fuel: `bftLoop` cannot run out before draining its queue. -/
theorem bftLoop_isSome (g : TGraph) (hwf : TGraph.WF g) :
    ∀ (fuel : Nat) (q vis : List Int), (∀ x ∈ q, x ∈ g.verts) →
      unvisitedCount g vis * (maxAdj g + 1) + q.length ≤ fuel →
      (bftLoop g fuel q vis).isSome := by
  intro fuel
  induction fuel with
  | zero =>
    intro q vis hq hle
    cases q with
    | nil => rw [bftLoop_nil]; rfl
    | cons t rest => simp at hle
  | succ m ih =>
    intro q vis hq hle
    cases q with
    | nil => rw [bftLoop_nil]; rfl
    | cons t rest =>
      rw [bftLoop_cons]
      have htv : t ∈ g.verts := hq t (List.mem_cons_self t rest)
      by_cases hm : t ∈ vis
      · rw [if_pos hm]
        refine ih rest vis (fun x hx => hq x (List.mem_cons.mpr (Or.inr hx))) ?_
        simp only [List.length_cons] at hle
        omega
      · rw [if_neg hm]
        refine ih (rest ++ g.adj t) (vis ++ [t]) ?_ ?_
        · intro x hx
          rcases List.mem_append.mp hx with hx | hx
          · exact hq x (List.mem_cons.mpr (Or.inr hx))
          · exact hwf t htv x hx
        · have hlt := unvisitedCount_append_lt g vis t htv hm
          have hadj := length_adj_le_maxAdj g t htv
          have hmul : unvisitedCount g (vis ++ [t]) * (maxAdj g + 1) + (maxAdj g + 1) ≤
              unvisitedCount g vis * (maxAdj g + 1) := by
            have h1 : unvisitedCount g (vis ++ [t]) + 1 ≤ unvisitedCount g vis := hlt
            calc unvisitedCount g (vis ++ [t]) * (maxAdj g + 1) + (maxAdj g + 1)
                = (unvisitedCount g (vis ++ [t]) + 1) * (maxAdj g + 1) := by ring
              _ ≤ unvisitedCount g vis * (maxAdj g + 1) :=
                  Nat.mul_le_mul_right _ h1
          rw [List.length_append]
          simp only [List.length_cons] at hle
          omega


theorem dftRec_zero (g : TGraph) (n : Int) (vis : List Int) :
    dftRec g 0 n vis = none := by rw [dftRec]

theorem dftRec_succ (g : TGraph) (fuel : Nat) (node : Int) (vis : List Int) :
    dftRec g (fuel + 1) node vis = dftNbrs g fuel (g.adj node) (vis ++ [node]) := by
  rw [dftRec]

theorem dftNbrs_nil (g : TGraph) (fuel : Nat) (vis : List Int) :
    dftNbrs g fuel [] vis = some vis := by rw [dftNbrs]

theorem dftNbrs_cons (g : TGraph) (fuel : Nat) (n : Int) (rest vis : List Int) :
    dftNbrs g fuel (n :: rest) vis =
      if n ∈ vis then dftNbrs g fuel rest vis
      else
        match dftRec g fuel n vis with
        | none => none
        | some visited2 => dftNbrs g fuel rest visited2 := by
  rw [dftNbrs]

/-- Monotonicity of the neighbor walk, given monotonicity of the node
recursion at the same depth. -/
theorem dftNbrs_mono_of (g : TGraph) (fuel : Nat)
    (hr : ∀ (n : Int) (vis vis2 : List Int), dftRec g fuel n vis = some vis2 →
      (∀ x ∈ vis, x ∈ vis2) ∧ n ∈ vis2) :
    ∀ (ns vis vis2 : List Int), dftNbrs g fuel ns vis = some vis2 →
      ∀ x ∈ vis, x ∈ vis2 := by
  intro ns
  induction ns with
  | nil =>
    intro vis vis2 h
    rw [dftNbrs_nil] at h
    obtain rfl := Option.some_inj.mp h
    exact fun x hx => hx
  | cons n rest ih =>
    intro vis vis2 h
    rw [dftNbrs_cons] at h
    by_cases hm : n ∈ vis
    · rw [if_pos hm] at h
      exact ih vis vis2 h
    · rw [if_neg hm] at h
      cases hrec : dftRec g fuel n vis with
      | none => rw [hrec] at h; exact absurd h (by simp)
      | some w =>
        rw [hrec] at h
        dsimp only at h
        intro x hx
        exact ih w vis2 h x ((hr n vis w hrec).1 x hx)

/-- `_dft_recurse` only appends to the shared visited list, and records
its own node. -/
theorem dftRec_mono (g : TGraph) :
    ∀ (fuel : Nat) (n : Int) (vis vis2 : List Int),
      dftRec g fuel n vis = some vis2 → (∀ x ∈ vis, x ∈ vis2) ∧ n ∈ vis2 := by
  intro fuel
  induction fuel with
  | zero =>
    intro n vis vis2 h
    rw [dftRec_zero] at h
    exact absurd h (by simp)
  | succ m ih =>
    intro n vis vis2 h
    rw [dftRec_succ] at h
    have hmono := dftNbrs_mono_of g m ih _ _ _ h
    constructor
    · intro x hx; exact hmono x (List.mem_append.mpr (Or.inl hx))
    · exact hmono n (List.mem_append.mpr (Or.inr (by simp)))

theorem dftNbrs_mono (g : TGraph) (fuel : Nat) :
    ∀ (ns vis vis2 : List Int), dftNbrs g fuel ns vis = some vis2 →
      ∀ x ∈ vis, x ∈ vis2 :=
  dftNbrs_mono_of g fuel (dftRec_mono g fuel)

theorem dftNbrs_nodup_of (g : TGraph) (fuel : Nat)
    (hr : ∀ (n : Int) (vis vis2 : List Int), vis.Nodup → n ∉ vis →
      dftRec g fuel n vis = some vis2 → vis2.Nodup) :
    ∀ (ns vis vis2 : List Int), vis.Nodup →
      dftNbrs g fuel ns vis = some vis2 → vis2.Nodup := by
  intro ns
  induction ns with
  | nil =>
    intro vis vis2 hnd h
    rw [dftNbrs_nil] at h
    obtain rfl := Option.some_inj.mp h
    exact hnd
  | cons n rest ih =>
    intro vis vis2 hnd h
    rw [dftNbrs_cons] at h
    by_cases hm : n ∈ vis
    · rw [if_pos hm] at h
      exact ih vis vis2 hnd h
    · rw [if_neg hm] at h
      cases hrec : dftRec g fuel n vis with
      | none => rw [hrec] at h; exact absurd h (by simp)
      | some w =>
        rw [hrec] at h
        dsimp only at h
        exact ih w vis2 (hr n vis w hnd hm hrec) h

/-- `dft` never records a vertex twice. -/
theorem dftRec_nodup (g : TGraph) :
    ∀ (fuel : Nat) (n : Int) (vis vis2 : List Int), vis.Nodup → n ∉ vis →
      dftRec g fuel n vis = some vis2 → vis2.Nodup := by
  intro fuel
  induction fuel with
  | zero =>
    intro n vis vis2 _ _ h
    rw [dftRec_zero] at h
    exact absurd h (by simp)
  | succ m ih =>
    intro n vis vis2 hnd hnv h
    rw [dftRec_succ] at h
    refine dftNbrs_nodup_of g m ih _ _ _ ?_ h
    refine hnd.append (List.nodup_singleton n) ?_
    intro a ha
    simp only [List.mem_singleton]
    intro han
    exact hnv (han ▸ ha)

theorem dftNbrs_subset_of (g : TGraph) (fuel : Nat)
    (hr : ∀ (n : Int) (vis vis2 : List Int), n ∈ g.verts →
      (∀ x ∈ vis, x ∈ g.verts) → dftRec g fuel n vis = some vis2 →
      ∀ x ∈ vis2, x ∈ g.verts) :
    ∀ (ns vis vis2 : List Int), (∀ m2 ∈ ns, m2 ∈ g.verts) →
      (∀ x ∈ vis, x ∈ g.verts) → dftNbrs g fuel ns vis = some vis2 →
      ∀ x ∈ vis2, x ∈ g.verts := by
  intro ns
  induction ns with
  | nil =>
    intro vis vis2 _ hv h
    rw [dftNbrs_nil] at h
    obtain rfl := Option.some_inj.mp h
    exact hv
  | cons n rest ih =>
    intro vis vis2 hns hv h
    rw [dftNbrs_cons] at h
    by_cases hm : n ∈ vis
    · rw [if_pos hm] at h
      exact ih vis vis2 (fun m2 hm2 => hns m2 (List.mem_cons.mpr (Or.inr hm2))) hv h
    · rw [if_neg hm] at h
      cases hrec : dftRec g fuel n vis with
      | none => rw [hrec] at h; exact absurd h (by simp)
      | some w =>
        rw [hrec] at h
        dsimp only at h
        exact ih w vis2 (fun m2 hm2 => hns m2 (List.mem_cons.mpr (Or.inr hm2)))
          (hr n vis w (hns n (List.mem_cons_self n rest)) hv hrec) h

/-- `dft` visits only present vertices. -/
theorem dftRec_subset (g : TGraph) (hwf : TGraph.WF g) :
    ∀ (fuel : Nat) (n : Int) (vis vis2 : List Int), n ∈ g.verts →
      (∀ x ∈ vis, x ∈ g.verts) → dftRec g fuel n vis = some vis2 →
      ∀ x ∈ vis2, x ∈ g.verts := by
  intro fuel
  induction fuel with
  | zero =>
    intro n vis vis2 _ _ h
    rw [dftRec_zero] at h
    exact absurd h (by simp)
  | succ m ih =>
    intro n vis vis2 hn hv h
    rw [dftRec_succ] at h
    refine dftNbrs_subset_of g m ih _ _ _ (fun m2 hm2 => hwf n hn m2 hm2) ?_ h
    intro x hx
    rcases List.mem_append.mp hx with hx | hx
    · exact hv x hx
    · simp only [List.mem_singleton] at hx
      exact hx ▸ hn

theorem dftNbrs_sound_of (g : TGraph) (fuel : Nat)
    (hr : ∀ (n : Int) (vis vis2 : List Int), dftRec g fuel n vis = some vis2 →
      ∀ x ∈ vis2, x ∈ vis ∨ Reach g n x) :
    ∀ (ns vis vis2 : List Int), dftNbrs g fuel ns vis = some vis2 →
      ∀ x ∈ vis2, x ∈ vis ∨ ∃ m2 ∈ ns, Reach g m2 x := by
  intro ns
  induction ns with
  | nil =>
    intro vis vis2 h
    rw [dftNbrs_nil] at h
    obtain rfl := Option.some_inj.mp h
    exact fun x hx => Or.inl hx
  | cons n rest ih =>
    intro vis vis2 h
    rw [dftNbrs_cons] at h
    by_cases hm : n ∈ vis
    · rw [if_pos hm] at h
      intro x hx
      rcases ih vis vis2 h x hx with hc | ⟨m2, hm2, hc⟩
      · exact Or.inl hc
      · exact Or.inr ⟨m2, List.mem_cons.mpr (Or.inr hm2), hc⟩
    · rw [if_neg hm] at h
      cases hrec : dftRec g fuel n vis with
      | none => rw [hrec] at h; exact absurd h (by simp)
      | some w =>
        rw [hrec] at h
        dsimp only at h
        intro x hx
        rcases ih w vis2 h x hx with hc | ⟨m2, hm2, hc⟩
        · rcases hr n vis w hrec x hc with hc2 | hc2
          · exact Or.inl hc2
          · exact Or.inr ⟨n, List.mem_cons_self n rest, hc2⟩
        · exact Or.inr ⟨m2, List.mem_cons.mpr (Or.inr hm2), hc⟩

/-- Everything `dft` adds is reachable from the node it was called on. -/
theorem dftRec_sound (g : TGraph) :
    ∀ (fuel : Nat) (n : Int) (vis vis2 : List Int),
      dftRec g fuel n vis = some vis2 →
      ∀ x ∈ vis2, x ∈ vis ∨ Reach g n x := by
  intro fuel
  induction fuel with
  | zero =>
    intro n vis vis2 h
    rw [dftRec_zero] at h
    exact absurd h (by simp)
  | succ m ih =>
    intro n vis vis2 h
    rw [dftRec_succ] at h
    intro x hx
    rcases dftNbrs_sound_of g m ih _ _ _ h x hx with hc | ⟨m2, hm2, hc⟩
    · rcases List.mem_append.mp hc with hc | hc
      · exact Or.inl hc
      · simp only [List.mem_singleton] at hc
        exact Or.inr (hc ▸ Relation.ReflTransGen.refl)
    · exact Or.inr (Relation.ReflTransGen.head hm2 hc)

theorem dftNbrs_closed_of (g : TGraph) (fuel : Nat)
    (hr : ∀ (n : Int) (vis vis2 : List Int), dftRec g fuel n vis = some vis2 →
      ∀ x ∈ vis2, x ∈ vis ∨ ∀ u ∈ g.adj x, u ∈ vis2) :
    ∀ (ns vis vis2 : List Int), dftNbrs g fuel ns vis = some vis2 →
      (∀ m2 ∈ ns, m2 ∈ vis2) ∧
      (∀ x ∈ vis2, x ∈ vis ∨ ∀ u ∈ g.adj x, u ∈ vis2) := by
  intro ns
  induction ns with
  | nil =>
    intro vis vis2 h
    rw [dftNbrs_nil] at h
    obtain rfl := Option.some_inj.mp h
    exact ⟨by simp, fun x hx => Or.inl hx⟩
  | cons n rest ih =>
    intro vis vis2 h
    rw [dftNbrs_cons] at h
    by_cases hm : n ∈ vis
    · rw [if_pos hm] at h
      obtain ⟨h1, h2⟩ := ih vis vis2 h
      refine ⟨?_, h2⟩
      intro m2 hm2
      rcases List.mem_cons.mp hm2 with hc | hc
      · exact hc ▸ dftNbrs_mono g fuel rest vis vis2 h n hm
      · exact h1 m2 hc
    · rw [if_neg hm] at h
      cases hrec : dftRec g fuel n vis with
      | none => rw [hrec] at h; exact absurd h (by simp)
      | some w =>
        rw [hrec] at h
        dsimp only at h
        obtain ⟨h1, h2⟩ := ih w vis2 h
        have hmonow : ∀ x ∈ w, x ∈ vis2 := dftNbrs_mono g fuel rest w vis2 h
        refine ⟨?_, ?_⟩
        · intro m2 hm2
          rcases List.mem_cons.mp hm2 with hc | hc
          · exact hc ▸ hmonow n (dftRec_mono g fuel n vis w hrec).2
          · exact h1 m2 hc
        · intro x hx
          rcases h2 x hx with hc | hc
          · rcases hr n vis w hrec x hc with hc2 | hc2
            · exact Or.inl hc2
            · exact Or.inr (fun u hu => hmonow u (hc2 u hu))
          · exact Or.inr hc

/-- Once `_dft_recurse` returns, every newly visited vertex has all its
neighbors visited. -/
theorem dftRec_closed (g : TGraph) :
    ∀ (fuel : Nat) (n : Int) (vis vis2 : List Int),
      dftRec g fuel n vis = some vis2 →
      ∀ x ∈ vis2, x ∈ vis ∨ ∀ u ∈ g.adj x, u ∈ vis2 := by
  intro fuel
  induction fuel with
  | zero =>
    intro n vis vis2 h
    rw [dftRec_zero] at h
    exact absurd h (by simp)
  | succ m ih =>
    intro n vis vis2 h
    rw [dftRec_succ] at h
    obtain ⟨h1, h2⟩ := dftNbrs_closed_of g m ih _ _ _ h
    intro x hx
    rcases h2 x hx with hc | hc
    · rcases List.mem_append.mp hc with hc2 | hc2
      · exact Or.inl hc2
      · simp only [List.mem_singleton] at hc2
        subst hc2
        exact Or.inr h1
    · exact Or.inr hc


theorem dftNbrs_isSome_of (g : TGraph) (fuel : Nat)
    (hr : ∀ (n : Int) (vis : List Int), n ∈ g.verts → n ∉ vis →
      unvisitedCount g vis < fuel → (dftRec g fuel n vis).isSome) :
    ∀ (ns vis : List Int), (∀ m2 ∈ ns, m2 ∈ g.verts) →
      unvisitedCount g vis < fuel → (dftNbrs g fuel ns vis).isSome := by
  intro ns
  induction ns with
  | nil =>
    intro vis _ _
    rw [dftNbrs_nil]
    rfl
  | cons n rest ih =>
    intro vis hns hfu
    rw [dftNbrs_cons]
    by_cases hm : n ∈ vis
    · rw [if_pos hm]
      exact ih vis (fun m2 h => hns m2 (List.mem_cons.mpr (Or.inr h))) hfu
    · rw [if_neg hm]
      have hn := hns n (List.mem_cons_self n rest)
      have hsome := hr n vis hn hm hfu
      cases hrec : dftRec g fuel n vis with
      | none => rw [hrec] at hsome; exact absurd hsome (by simp)
      | some w =>
        dsimp only
        refine ih w (fun m2 h => hns m2 (List.mem_cons.mpr (Or.inr h))) ?_
        have hmono := (dftRec_mono g fuel n vis w hrec).1
        have hnw := (dftRec_mono g fuel n vis w hrec).2
        have hle : unvisitedCount g w ≤ unvisitedCount g (vis ++ [n]) := by
          refine unvisitedCount_mono g (vis ++ [n]) w ?_
          intro x hx
          rcases List.mem_append.mp hx with hx | hx
          · exact hmono x hx
          · simp only [List.mem_singleton] at hx
            exact hx ▸ hnw
        have hlt := unvisitedCount_append_lt g vis n hn hm
        omega

/-- Sufficient recursion depth: `dft` cannot run out of fuel. -/
theorem dftRec_isSome (g : TGraph) (hwf : TGraph.WF g) :
    ∀ (fuel : Nat) (n : Int) (vis : List Int), n ∈ g.verts → n ∉ vis →
      unvisitedCount g vis < fuel → (dftRec g fuel n vis).isSome := by
  intro fuel
  induction fuel with
  | zero => intro n vis _ _ h; omega
  | succ m ih =>
    intro n vis hn hnv hfu
    rw [dftRec_succ]
    refine dftNbrs_isSome_of g m ih (g.adj n) (vis ++ [n])
      (fun m2 hm2 => hwf n hn m2 hm2) ?_
    have hlt := unvisitedCount_append_lt g vis n hn hnv
    omega

/-- Claim C2: `bft` and `dft` visit every vertex reachable from the start
exactly once — the visited list has no duplicates and contains exactly the
reachable vertices; when every vertex is reachable from the start (the
graph is connected) they return the visited list containing all vertices
and never raise `IncompleteTraversalError`, and when some vertex is
unreachable (the graph is disconnected) they raise it. -/
theorem c2_traversals (g : TGraph) (start : Int)
    (hwf : TGraph.WF g) (hnd : g.verts.Nodup) (hs : start ∈ g.verts) :
    ∃ visB visD,
      bftLoop g (bftFuel g) (g.adj start) [start] = some visB ∧
      dftRec g (dftFuel g) start [] = some visD ∧
      visB.Nodup ∧ visD.Nodup ∧
      (∀ x, x ∈ visB ↔ Reach g start x) ∧
      (∀ x, x ∈ visD ↔ Reach g start x) ∧
      ((∀ v ∈ g.verts, Reach g start v) →
        bft g start = some (Except.ok visB) ∧ (∀ v ∈ g.verts, v ∈ visB) ∧
        dft g start = some (Except.ok visD) ∧ (∀ v ∈ g.verts, v ∈ visD)) ∧
      ((∃ v ∈ g.verts, ¬ Reach g start v) →
        bft g start = some (Except.error ()) ∧
        dft g start = some (Except.error ())) := by
  have hqsub : ∀ x ∈ g.adj start, x ∈ g.verts := hwf start hs
  have huvle : unvisitedCount g [start] ≤ g.verts.length :=
    List.length_filter_le _ _
  have hbsome := bftLoop_isSome g hwf (bftFuel g) (g.adj start) [start] hqsub
    (by
      have h1 := length_adj_le_maxAdj g start hs
      have h2 := Nat.mul_le_mul_right (maxAdj g + 1) huvle
      have hdist : (g.verts.length + 1) * (maxAdj g + 1) =
          g.verts.length * (maxAdj g + 1) + (maxAdj g + 1) := by ring
      unfold bftFuel
      omega)
  obtain ⟨visB, hB⟩ := Option.isSome_iff_exists.mp hbsome
  have huvle2 : unvisitedCount g [] ≤ g.verts.length := List.length_filter_le _ _
  have hdsome := dftRec_isSome g hwf (dftFuel g) start [] hs (by simp)
    (by unfold dftFuel; omega)
  obtain ⟨visD, hD⟩ := Option.isSome_iff_exists.mp hdsome
  have hndB : visB.Nodup :=
    bftLoop_nodup g _ _ _ _ (List.nodup_singleton start) hB
  have hndD : visD.Nodup :=
    dftRec_nodup g _ _ _ _ List.nodup_nil (by simp) hD
  have hstartB : start ∈ visB :=
    bftLoop_mono g _ _ _ _ hB start (List.mem_singleton.mpr rfl)
  have hstartD : start ∈ visD := (dftRec_mono g _ _ _ _ hD).2
  have hsoundB : ∀ x ∈ visB, Reach g start x := by
    refine bftLoop_sound g start _ _ _ _ ?_ ?_ hB
    · intro x hx
      simp only [List.mem_singleton] at hx
      exact hx ▸ Relation.ReflTransGen.refl
    · intro x hx
      exact Relation.ReflTransGen.single hx
  have hclosedB : ∀ x ∈ visB, ∀ u ∈ g.adj x, u ∈ visB := by
    refine bftLoop_closed g _ _ _ _ ?_ hB
    intro x hx u hu
    simp only [List.mem_singleton] at hx
    subst hx
    exact Or.inr hu
  have hsoundD : ∀ x ∈ visD, Reach g start x := by
    intro x hx
    rcases dftRec_sound g _ _ _ _ hD x hx with hc | hc
    · simp at hc
    · exact hc
  have hclosedD : ∀ x ∈ visD, ∀ u ∈ g.adj x, u ∈ visD := by
    intro x hx
    rcases dftRec_closed g _ _ _ _ hD x hx with hc | hc
    · simp at hc
    · exact hc
  have hcompleteB : ∀ x, Reach g start x → x ∈ visB := by
    intro x hx
    induction hx with
    | refl => exact hstartB
    | tail hreach hstep ih => exact hclosedB _ ih _ hstep
  have hcompleteD : ∀ x, Reach g start x → x ∈ visD := by
    intro x hx
    induction hx with
    | refl => exact hstartD
    | tail hreach hstep ih => exact hclosedD _ ih _ hstep
  have hsubB : ∀ x ∈ visB, x ∈ g.verts := by
    refine bftLoop_subset g hwf _ _ _ _ hqsub ?_ hB
    intro x hx
    simp only [List.mem_singleton] at hx
    exact hx ▸ hs
  have hsubD : ∀ x ∈ visD, x ∈ g.verts :=
    dftRec_subset g hwf _ _ _ _ hs (by simp) hD
  refine ⟨visB, visD, hB, hD, hndB, hndD,
    fun x => ⟨hsoundB x, hcompleteB x⟩, fun x => ⟨hsoundD x, hcompleteD x⟩,
    ?_, ?_⟩
  · intro hconn
    have hallB : ∀ v ∈ g.verts, v ∈ visB := fun v hv => hcompleteB v (hconn v hv)
    have hallD : ∀ v ∈ g.verts, v ∈ visD := fun v hv => hcompleteD v (hconn v hv)
    have hlenB : visB.length = g.verts.length :=
      le_antisymm (hndB.subperm hsubB).length_le (hnd.subperm hallB).length_le
    have hlenD : visD.length = g.verts.length :=
      le_antisymm (hndD.subperm hsubD).length_le (hnd.subperm hallD).length_le
    refine ⟨?_, hallB, ?_, hallD⟩
    · unfold bft
      rw [hB]
      dsimp only
      rw [if_neg (by omega)]
    · unfold dft
      rw [hD]
      dsimp only
      rw [if_neg (by omega)]
  · rintro ⟨v, hv, hnr⟩
    have hnB : v ∉ visB := fun hmem => hnr (hsoundB v hmem)
    have hnD : v ∉ visD := fun hmem => hnr (hsoundD v hmem)
    have hsubB2 : ∀ x ∈ visB, x ∈ g.verts.erase v := by
      intro x hx
      refine (List.mem_erase_of_ne ?_).mpr (hsubB x hx)
      intro hxv
      exact hnB (by rw [← hxv]; exact hx)
    have hsubD2 : ∀ x ∈ visD, x ∈ g.verts.erase v := by
      intro x hx
      refine (List.mem_erase_of_ne ?_).mpr (hsubD x hx)
      intro hxv
      exact hnD (by rw [← hxv]; exact hx)
    have herase : (g.verts.erase v).length = g.verts.length - 1 :=
      List.length_erase_of_mem hv
    have hpos : 0 < g.verts.length := List.length_pos_of_mem hv
    have hlenB : visB.length < g.verts.length := by
      have := (hndB.subperm hsubB2).length_le
      omega
    have hlenD : visD.length < g.verts.length := by
      have := (hndD.subperm hsubD2).length_le
      omega
    constructor
    · unfold bft
      rw [hB]
      dsimp only
      rw [if_pos (by omega)]
    · unfold dft
      rw [hD]
      dsimp only
      rw [if_pos (by omega)]

/-- Witness for `c2_traversals` on the 2-cycle graph `1 — 2`. -/
theorem c2_traversals_witness :
    TGraph.WF (TGraph.mk [1, 2]
      (fun v => if v = 1 then [2] else if v = 2 then [1] else [])) ∧
    ([1, 2] : List Int).Nodup ∧ (1 : Int) ∈ ([1, 2] : List Int) ∧
    (∃ visB visD,
      bftLoop (TGraph.mk [1, 2]
          (fun v => if v = 1 then [2] else if v = 2 then [1] else []))
        (bftFuel (TGraph.mk [1, 2]
          (fun v => if v = 1 then [2] else if v = 2 then [1] else [])))
        ((TGraph.mk [1, 2]
          (fun v => if v = 1 then [2] else if v = 2 then [1] else [])).adj 1)
        [1] = some visB ∧
      dftRec (TGraph.mk [1, 2]
          (fun v => if v = 1 then [2] else if v = 2 then [1] else []))
        (dftFuel (TGraph.mk [1, 2]
          (fun v => if v = 1 then [2] else if v = 2 then [1] else [])))
        1 [] = some visD ∧
      visB.Nodup ∧ visD.Nodup ∧
      (∀ x, x ∈ visB ↔ Reach (TGraph.mk [1, 2]
        (fun v => if v = 1 then [2] else if v = 2 then [1] else [])) 1 x) ∧
      (∀ x, x ∈ visD ↔ Reach (TGraph.mk [1, 2]
        (fun v => if v = 1 then [2] else if v = 2 then [1] else [])) 1 x) ∧
      ((∀ v ∈ (TGraph.mk [1, 2]
          (fun v => if v = 1 then [2] else if v = 2 then [1] else [])).verts,
          Reach (TGraph.mk [1, 2]
            (fun v => if v = 1 then [2] else if v = 2 then [1] else [])) 1 v) →
        bft (TGraph.mk [1, 2]
          (fun v => if v = 1 then [2] else if v = 2 then [1] else [])) 1 =
          some (Except.ok visB) ∧
        (∀ v ∈ (TGraph.mk [1, 2]
          (fun v => if v = 1 then [2] else if v = 2 then [1] else [])).verts,
          v ∈ visB) ∧
        dft (TGraph.mk [1, 2]
          (fun v => if v = 1 then [2] else if v = 2 then [1] else [])) 1 =
          some (Except.ok visD) ∧
        (∀ v ∈ (TGraph.mk [1, 2]
          (fun v => if v = 1 then [2] else if v = 2 then [1] else [])).verts,
          v ∈ visD)) ∧
      ((∃ v ∈ (TGraph.mk [1, 2]
          (fun v => if v = 1 then [2] else if v = 2 then [1] else [])).verts,
          ¬ Reach (TGraph.mk [1, 2]
            (fun v => if v = 1 then [2] else if v = 2 then [1] else [])) 1 v) →
        bft (TGraph.mk [1, 2]
          (fun v => if v = 1 then [2] else if v = 2 then [1] else [])) 1 =
          some (Except.error ()) ∧
        dft (TGraph.mk [1, 2]
          (fun v => if v = 1 then [2] else if v = 2 then [1] else [])) 1 =
          some (Except.error ()))) :=
  ⟨by decide, by decide, by decide,
    c2_traversals (TGraph.mk [1, 2]
      (fun v => if v = 1 then [2] else if v = 2 then [1] else [])) 1
      (by decide) (by decide) (by decide)⟩

end Graphs
